import Mathlib

/-!
Shallow embedding of the UFDR-AI core: the chain-of-custody log
(`src/utils/chain_of_custody.py`) and the behavioral pattern engine
(`src/utils/anomaly_detection.py`), with theorems checking the
natural-language specification against the code.

Modelling granularity, declared once here:
* SHA-256 over the canonical JSON serialization of an entry is modelled as an
  idealized collision-resistant digest: the digest value is an inductive term
  determined exactly by the serialized content (`Digest`), so equal inputs give
  equal digests and distinct inputs give distinct digests.  HMAC-SHA256 is
  modelled the same way, keyed (`Sig`).
* Python JSON-serializable values are modelled by `JVal` (numbers as `Int`;
  the float/int distinction and string-escape details are below this model's
  granularity).
* `datetime` values are modelled as seconds since a reference epoch (`Int`);
  hour-of-day, the `"%Y-%m-%d %H"` hour bucket and the `"%Y-%m-%d"` day bucket
  become integer divisions, which matches the calendar functions on naive
  datetimes (ISO date strings sort exactly like the integer day/hour indices).
* `dateutil.isoparse` / `strptime` are external library calls; a message
  timestamp is modelled by whether those parsers resolve it (`Timestamp.parsed`)
  or not (`unparseable` / `absent`), and `datetime.now()` is an explicit `now`
  parameter.
* Python raises `TypeError` when comparing a timezone-aware datetime (an
  accepted string with an explicit UTC offset, `'Z'`/`±HH:MM`, via `isoparse`)
  with a naive one (`strptime`/`fromtimestamp` results and the `datetime.now()`
  fallback), so the `sorted(...)` calls abort the whole analysis on a batch
  mixing the two.  The refined timestamp classification `TsForm` records
  awareness, and the `*_tz` wrappers model this batch-fatal error path as
  `none`; the plain analysis functions model the total behavior on batches
  whose datetimes are mutually comparable.
-/

namespace UFDR

/-- Scalar JSON values (nesting beyond one level is below this model's
granularity). -/
inductive JLeaf where
  | lnull : JLeaf
  | lstr (s : String) : JLeaf
  | lnum (n : Int) : JLeaf
deriving DecidableEq, Repr

/-- JSON-serializable values as produced/consumed by `json.dumps`/`json.loads`
in the source (numbers collapsed to `Int`, containers one level deep). -/
inductive JVal where
  | jnull : JVal
  | jstr (s : String) : JVal
  | jnum (n : Int) : JVal
  | jarr (xs : List JLeaf) : JVal
  | jobj (kvs : List (String × JLeaf)) : JVal
deriving DecidableEq, Repr

/-- Serialize a scalar JSON value (string escaping elided). -/
def jleafSer : JLeaf → String
  | .lnull => "null"
  | .lstr s => "\"" ++ s ++ "\""
  | .lnum n => toString n

/-- Models `json.dumps` (default separators `", "` and `": "`; string escaping
elided, it is below this model's granularity). -/
def jser : JVal → String
  | .jnull => "null"
  | .jstr s => "\"" ++ s ++ "\""
  | .jnum n => toString n
  | .jarr xs => "[" ++ String.intercalate ", " (xs.map jleafSer) ++ "]"
  | .jobj kvs =>
      "\x7b" ++
        String.intercalate ", "
          (kvs.map (fun kv => "\"" ++ kv.1 ++ "\": " ++ jleafSer kv.2)) ++
      "\x7d"

/-- Python truthiness of a JSON value (`if details:` in the source). -/
def pyTruthy : JVal → Bool
  | .jnull => false
  | .jstr s => s != ""
  | .jnum n => n != 0
  | .jarr xs => !xs.isEmpty
  | .jobj kvs => !kvs.isEmpty

/-! ## Chain of custody — `src/utils/chain_of_custody.py` -/

/-- The nine data fields of `entry_data` in `log_action` / the reconstruction
in `verify_chain_integrity` (everything hashed except `previous_hash`). -/
structure EntryCore where
  timestamp : String
  action : String
  actor : String
  source_file : Option String
  line_numbers : Option JVal
  query : Option String
  results_count : Option Int
  confidence : Option Int
  details : Option JVal
deriving DecidableEq, Repr

/-- Idealized SHA-256 digest of `json.dumps(entry_data, sort_keys=True)`:
the digest is determined exactly by the hashed content, namely the nine data
fields plus the optional `previous_hash` (present in `entry_data` iff the
previous hash was truthy). -/
inductive Digest where
  | first (core : EntryCore) : Digest
  | chained (core : EntryCore) (prev : Digest) : Digest
deriving DecidableEq, Repr

/-- Idealized HMAC-SHA256 over the same serialized `entry_data`, keyed. -/
structure Sig where
  key : String
  core : EntryCore
  prev : Option Digest
deriving DecidableEq, Repr

/-- A stored row of the `custody_log` table (the autoincrement `id` plus the
twelve value columns). -/
structure Row where
  rid : Nat
  timestamp : String
  action : String
  actor : String
  source_file : Option String
  line_numbers : Option JVal
  query : Option String
  results_count : Option Int
  confidence : Option Int
  hash_value : Digest
  previous_hash : Option Digest
  signature : Sig
  details : Option JVal
deriving DecidableEq, Repr

/-- `hashlib.sha256(entry_json.encode()).hexdigest()` where `entry_json`
serializes the core fields plus `previous_hash` iff it is truthy. -/
def digestOf (c : EntryCore) : Option Digest → Digest
  | none => Digest.first c
  | some p => Digest.chained c p

/-- `hmac.new(server_key, entry_json.encode(), hashlib.sha256).hexdigest()`. -/
def sigOf (key : String) (c : EntryCore) (p : Option Digest) : Sig := ⟨key, c, p⟩

/-- The hard-coded default signing key `b'aie_secret_key'` used both as the
default of `log_action`'s `server_key` parameter and unconditionally inside
`verify_chain_integrity`. -/
def defaultKey : String := "aie_secret_key"

/-- The `line_numbers` value actually INSERTed:
`json.dumps(line_numbers) if isinstance(line_numbers, (list, dict)) else line_numbers`. -/
def storeLineNumbers : Option JVal → Option JVal
  | some (JVal.jarr xs) => some (JVal.jstr (jser (JVal.jarr xs)))
  | some (JVal.jobj kvs) => some (JVal.jstr (jser (JVal.jobj kvs)))
  | v => v

/-- The `details` value as stored and later read back by `verify_chain_integrity`:
`json.dumps(details) if details else None` on insert, `json.loads` on read.
At value level the dumps/loads round trip is the identity, and a falsy
`details` (absent or `{}` etc.) is stored as NULL. -/
def storeDetails : Option JVal → Option JVal
  | none => none
  | some v => if pyTruthy v then some v else none

/-- `get_last_hash`: `SELECT hash_value FROM custody_log ORDER BY id DESC LIMIT 1`. -/
def lastHash (rows : List Row) : Option Digest :=
  (rows.getLast?).map (fun r => r.hash_value)

/-- The caller-supplied arguments of `log_action` (the wall-clock
`datetime.now().isoformat()` is passed explicitly as `timestamp`). -/
structure ActionInput where
  timestamp : String
  action : String
  actor : String
  source_file : Option String
  line_numbers : Option JVal
  query : Option String
  results_count : Option Int
  confidence : Option Int
  details : Option JVal
deriving DecidableEq, Repr

/-- The row built and INSERTed by one `log_action` call: hash and signature are
computed over the raw `entry_data`, while the stored `line_numbers`/`details`
columns go through their store transformations. -/
def computeRow (key : String) (rows : List Row) (inp : ActionInput) : Row :=
  let prev := lastHash rows
  let core : EntryCore :=
    ⟨inp.timestamp, inp.action, inp.actor, inp.source_file, inp.line_numbers,
     inp.query, inp.results_count, inp.confidence, inp.details⟩
  ⟨rows.length + 1, inp.timestamp, inp.action, inp.actor, inp.source_file,
   storeLineNumbers inp.line_numbers, inp.query, inp.results_count,
   inp.confidence, digestOf core prev, prev, sigOf key core prev,
   storeDetails inp.details⟩

/-- `log_action(...)`: append one signed, chained entry; returns the new hash
and the updated stored log. -/
def log_action (key : String) (rows : List Row) (inp : ActionInput) :
    Digest × List Row :=
  let r := computeRow key rows inp
  (r.hash_value, rows ++ [r])

/-- `log_action` with its default `server_key=b'aie_secret_key'`. -/
def log_action_default (rows : List Row) (inp : ActionInput) : Digest × List Row :=
  log_action defaultKey rows inp

/-- The `entry_data` dictionary reconstructed by `verify_chain_integrity` from
the stored columns of a row. -/
def storedCore (r : Row) : EntryCore :=
  ⟨r.timestamp, r.action, r.actor, r.source_file, r.line_numbers, r.query,
   r.results_count, r.confidence, r.details⟩

/-- Failure message `f"Previous hash mismatch at entry {id}"`. -/
def prevMsgAt (n : Nat) : String := "Previous hash mismatch at entry " ++ toString n

/-- Failure message `f"Hash mismatch at entry {id}"`. -/
def hashMsgAt (n : Nat) : String := "Hash mismatch at entry " ++ toString n

/-- Failure message `f"Signature verification failed at entry {id}"`. -/
def sigMsgAt (n : Nat) : String := "Signature verification failed at entry " ++ toString n

/-- The hash and signature checks on one row: recompute the digest and the
HMAC (under the hard-coded key) from the stored columns and compare with the
stored `hash_value` and `signature`. -/
def verifyTail (acc : Option Digest) (r : Row) (rest : Bool × String) : Bool × String :=
  if digestOf (storedCore r) acc ≠ r.hash_value then (false, hashMsgAt r.rid)
  else if sigOf defaultKey (storedCore r) acc ≠ r.signature then (false, sigMsgAt r.rid)
  else rest

/-- The scan loop of `verify_chain_integrity`, walking rows in id order with
the running `previous_hash` (`None` before the first row).  The stored
`previous_hash` column is compared only when the running value is truthy
(`if previous_hash:` in the source). -/
def verifyFrom (acc : Option Digest) : List Row → Bool × String
  | [] => (true, "Chain integrity verified")
  | r :: rs =>
    match acc with
    | some p =>
      if r.previous_hash ≠ some p then (false, prevMsgAt r.rid)
      else verifyTail (some p) r (verifyFrom (some r.hash_value) rs)
    | none => verifyTail none r (verifyFrom (some r.hash_value) rs)

/-- `verify_chain_integrity()` over the stored log. -/
def verify_chain_integrity (rows : List Row) : Bool × String :=
  if rows.isEmpty then (true, "Chain is empty") else verifyFrom none rows

/-! ## Chain-of-custody stubs — `src/utils/anomaly_detection.py` -/

/-- A log entry as built by `log_action` in `utils/anomaly_detection.py`
(dictionary fields of the MVP in-memory entry). -/
structure AdEntry where
  file_id : String
  action : String
  actor : String
  timestamp : Int
  input_ref : Option String
  output_ref : Option String
  details : List (String × JLeaf)
  prev_entry_hash : Option String
  signature : String
  sha256_of_output : Option String
deriving DecidableEq, Repr

/-- `verify_chain_integrity` exported by `utils/anomaly_detection.py`:
`return True  # Placeholder for MVP`. -/
def adVerifyChainIntegrity (_log_entries : List AdEntry) : Bool := true

/-! ## Messages and timestamps — `src/utils/anomaly_detection.py` -/

/-- The `timestamp` field of an input message, classified by what the parsing
cascade in the source does with it: `parsed t` stands for a string accepted by
`isoparse`/`strptime` (or an int/float epoch value) resolving to instant `t`;
`unparseable` stands for a string all three parsers reject; `absent` stands for
a missing or non-string, non-numeric value. -/
inductive Timestamp where
  | parsed (t : Int) : Timestamp
  | unparseable (s : String) : Timestamp
  | absent : Timestamp
deriving DecidableEq, Repr

/-- An input message (`mid` stands for the identifying payload of the dict:
id/content/extra fields, carried through unchanged). -/
structure Msg where
  mid : Nat
  sender : String
  recipient : String
  ts : Timestamp
deriving DecidableEq, Repr

/-- A processed message: the original dict plus the `datetime` field added by
the parsing cascade. -/
structure PMsg where
  msg : Msg
  dt : Int
deriving DecidableEq, Repr

/-- The parsing cascade of both analysis functions: a resolvable timestamp
yields its instant, everything else falls back to `datetime.now()`. -/
def resolveTs (now : Int) : Timestamp → Int
  | .parsed t => t
  | .unparseable _ => now
  | .absent => now

/-- The `processed_messages` loop: every message is kept and given a
`datetime` field (the `except Exception: continue` guard never fires for a
plain dict copy). -/
def processMessages (now : Int) (msgs : List Msg) : List PMsg :=
  msgs.map (fun m => ⟨m, resolveTs now m.ts⟩)

/-- Insert into a list sorted by an integer key, before the first element of
larger-or-equal key (the building block of a stable sort). -/
def insertLe {α : Type} (key : α → Int) (a : α) : List α → List α
  | [] => [a]
  | x :: xs => if key a ≤ key x then a :: x :: xs else x :: insertLe key a xs

/-- `sorted(l, key=...)`: stable sort by an integer key. -/
def sortByKey {α : Type} (key : α → Int) (l : List α) : List α :=
  l.foldr (insertLe key) []

/-- `sorted(processed_messages, key=lambda x: x['datetime'])` on a batch
whose datetimes are mutually comparable (all timezone-aware or all naive).
On a batch mixing the two, the real call raises `TypeError` instead of
returning; that error path is modelled by the `*_tz` wrappers below, not by
this total function. -/
def sortByDt (l : List PMsg) : List PMsg := sortByKey (fun m => m.dt) l

/-- `msg['datetime'].hour` (hour of day of an instant). -/
def hourOfDay (t : Int) : Int := (t.ediv 3600).emod 24

/-- The `"%Y-%m-%d %H"` bucket of an instant, as an hour index (ISO hour
strings order exactly like these indices). -/
def hourKey (t : Int) : Int := t.ediv 3600

/-- The `"%Y-%m-%d"` bucket of an instant, as a day index (ISO day strings
order exactly like these indices). -/
def dayKey (t : Int) : Int := t.ediv 86400

/-- Ordered-dictionary lookup on an association list. -/
def alookup {α β : Type} [DecidableEq α] (k : α) : List (α × β) → Option β
  | [] => none
  | kv :: rest => if kv.1 = k then some kv.2 else alookup k rest

/-- The `defaultdict` update `d[k] = f(d[k])` with default entry `dflt`,
keeping keys in insertion order as Python dictionaries do. -/
def dictUp {α β : Type} [DecidableEq α] (k : α) (dflt : β) (f : β → β) :
    List (α × β) → List (α × β)
  | [] => [(k, f dflt)]
  | kv :: rest =>
    if kv.1 = k then (kv.1, f kv.2) :: rest else kv :: dictUp k dflt f rest

/-- `defaultdict(list)` append: `d[k].append(m)`. -/
def groupAdd {α β : Type} [DecidableEq α] (k : α) (m : β)
    (g : List (α × List β)) : List (α × List β) :=
  dictUp k [] (fun ms => ms ++ [m]) g

/-- `defaultdict(int)` increment: `d[k] += 1`. -/
def bumpAdd {α : Type} [DecidableEq α] (k : α) (g : List (α × Nat)) :
    List (α × Nat) :=
  dictUp k 0 (fun n => n + 1) g

/-! ## `detect_temporal_anomalies` -/

/-- One element of `message_spikes`: bucket key, total count and up to five
sample messages. -/
structure Spike where
  hour : Int
  count : Nat
  messages : List PMsg
deriving DecidableEq, Repr

/-- The return value of `detect_temporal_anomalies`. -/
structure AnomalyReport where
  odd_hour_messages : List PMsg
  message_spikes : List Spike
deriving DecidableEq, Repr

/-- `messages_by_hour`: bucket the sorted messages by calendar hour. -/
def groupByHour (msgs : List PMsg) : List (Int × List PMsg) :=
  msgs.foldl (fun acc m => groupAdd (hourKey m.dt) m acc) []

/-- Body of `detect_temporal_anomalies` after timestamp processing. -/
def detectCore (processed : List PMsg) (threshold : Nat) : AnomalyReport :=
  if processed.isEmpty then ⟨[], []⟩
  else
    ⟨(sortByDt processed).filter
        (fun m => decide (1 ≤ hourOfDay m.dt) && decide (hourOfDay m.dt ≤ 4)),
      (groupByHour (sortByDt processed)).filterMap
        (fun g => if threshold ≤ g.2.length
                  then some ⟨g.1, g.2.length, g.2.take 5⟩ else none)⟩

/-- `detect_temporal_anomalies(messages, threshold_messages_per_hour=50)`,
with `datetime.now()` passed explicitly as `now`. -/
def detect_temporal_anomalies (msgs : List Msg) (threshold : Nat) (now : Int) :
    AnomalyReport :=
  if msgs.isEmpty then ⟨[], []⟩
  else detectCore (processMessages now msgs) threshold

/-! ## `analyze_contact_patterns` -/

/-- One element of `new_contacts`. -/
structure NewContact where
  sender : String
  recipient : String
  first_contact_time : Int
  message_count : Nat
deriving DecidableEq, Repr

/-- One element of `contact_drops`. -/
structure ContactDrop where
  sender : String
  recipient : String
  last_active : Int
  previous_count : Nat
deriving DecidableEq, Repr

/-- The return value of `analyze_contact_patterns` (the contact graph already
in its serializable sender → recipient → count form). -/
structure ContactReport where
  new_contacts : List NewContact
  contact_drops : List ContactDrop
  contact_graph : List (String × List (String × Nat))
deriving DecidableEq, Repr

/-- The three dictionaries built by the single pass over sorted messages. -/
structure BuildState where
  graph : List (String × List (String × List PMsg))
  firstContact : List ((String × String) × Int)
  daily : List (Int × List ((String × String) × Nat))
deriving DecidableEq, Repr

/-- `contact_graph[sender][recipient].append(msg)` on the nested defaultdict. -/
def graphAdd (s r : String) (m : PMsg)
    (g : List (String × List (String × List PMsg))) :
    List (String × List (String × List PMsg)) :=
  dictUp s [] (groupAdd r m) g

/-- `if contact_pair not in first_contact_time: first_contact_time[...] = t`. -/
def firstAdd (p : String × String) (t : Int)
    (fc : List ((String × String) × Int)) : List ((String × String) × Int) :=
  match alookup p fc with
  | some _ => fc
  | none => fc ++ [(p, t)]

/-- `daily_contacts[day_key][contact_pair] += 1` on the nested defaultdict. -/
def dailyAdd (d : Int) (p : String × String)
    (dm : List (Int × List ((String × String) × Nat))) :
    List (Int × List ((String × String) × Nat)) :=
  dictUp d [] (bumpAdd p) dm

/-- One iteration of the message loop: messages missing `sender` or
`recipient` are skipped, the rest update all three dictionaries. -/
def buildStep (st : BuildState) (m : PMsg) : BuildState :=
  if m.msg.sender = "" ∨ m.msg.recipient = "" then st
  else
    ⟨graphAdd m.msg.sender m.msg.recipient m st.graph,
     firstAdd (m.msg.sender, m.msg.recipient) m.dt st.firstContact,
     dailyAdd (dayKey m.dt) (m.msg.sender, m.msg.recipient) st.daily⟩

/-- `max([msg['datetime'] for msg in sorted_messages])` (junk value 0 on the
empty list, which the source never reaches). -/
def maxDt : List PMsg → Int
  | [] => 0
  | m :: rest => rest.foldl (fun a x => max a x.dt) m.dt

/-- The `new_contacts` loop over `first_contact_time` in insertion order. -/
def newContactsOf (st : BuildState) (latest : Int) (windowHours : Int) :
    List NewContact :=
  st.firstContact.filterMap (fun pt =>
    if latest - 3600 * windowHours ≤ pt.2 then
      some ⟨pt.1.1, pt.1.2, pt.2,
            ((alookup pt.1.2 ((alookup pt.1.1 st.graph).getD [])).getD []).length⟩
    else none)

/-- The `contact_drops` block: sort the day keys, take the last two, and keep
the pairs active more than 3 times on the earlier day and absent on the later. -/
def contactDropsOf (st : BuildState) : List ContactDrop :=
  if st.daily.length ≥ 2 then
    match (sortByKey (fun d => d) (st.daily.map Prod.fst)).reverse with
    | today :: yesterday :: _ =>
      ((alookup yesterday st.daily).getD []).filterMap (fun pc =>
        if 3 < pc.2 ∧ alookup pc.1 ((alookup today st.daily).getD []) = none
        then some ⟨pc.1.1, pc.1.2, yesterday, pc.2⟩
        else none)
    | _ => []
  else []

/-- `serializable_graph`: replace each message list by its length. -/
def serializeGraph (g : List (String × List (String × List PMsg))) :
    List (String × List (String × Nat)) :=
  g.map (fun kv => (kv.1, kv.2.map (fun rv => (rv.1, rv.2.length))))

/-- Body of `analyze_contact_patterns` after timestamp processing. -/
def analyzeCore (processed : List PMsg) (windowHours : Int) : ContactReport :=
  if processed.isEmpty then ⟨[], [], []⟩
  else
    ⟨newContactsOf ((sortByDt processed).foldl buildStep ⟨[], [], []⟩)
        (maxDt (sortByDt processed)) windowHours,
      contactDropsOf ((sortByDt processed).foldl buildStep ⟨[], [], []⟩),
      serializeGraph ((sortByDt processed).foldl buildStep ⟨[], [], []⟩).graph⟩

/-- `analyze_contact_patterns(messages, new_contact_window_hours=24)`, with
`datetime.now()` passed explicitly as `now`. -/
def analyze_contact_patterns (msgs : List Msg) (windowHours : Int) (now : Int) :
    ContactReport :=
  if msgs.isEmpty then ⟨[], [], []⟩
  else analyzeCore (processMessages now msgs) windowHours

/-! ## Timezone-refined timestamps and the batch-fatal sort error -/

/-- Refined classification of the `timestamp` field, recording which parser
of the cascade accepts it and whether the resulting datetime is
timezone-aware: `isoparse` on a string with an explicit UTC offset
(`'Z'` rewritten to `'+00:00'`, or `±HH:MM`) yields an AWARE datetime; an
accepted string without an offset, the `strptime` fallbacks (naive even for a
literal `Z`) and `datetime.fromtimestamp` on numbers yield NAIVE datetimes;
everything else falls back to the naive `datetime.now()`. -/
inductive TsForm where
  | awareStr (t : Int) : TsForm
  | naiveStr (t : Int) : TsForm
  | epochNum (t : Int) : TsForm
  | badStr (s : String) : TsForm
  | missing : TsForm
deriving DecidableEq, Repr

/-- An input message with the refined timestamp classification. -/
structure RMsg where
  mid : Nat
  sender : String
  recipient : String
  ts : TsForm
deriving DecidableEq, Repr

/-- Forget awareness: the refined classification maps onto the coarse one
(every accepted form resolves to its instant, the rest to the fallback). -/
def eraseTs : TsForm → Timestamp
  | .awareStr t => .parsed t
  | .naiveStr t => .parsed t
  | .epochNum t => .parsed t
  | .badStr s => .unparseable s
  | .missing => .absent

/-- Forget awareness on a whole message. -/
def eraseMsg (m : RMsg) : Msg :=
  ⟨m.mid, m.sender, m.recipient, eraseTs m.ts⟩

/-- Whether the processed `datetime` of this message is timezone-aware. -/
def tsAware : TsForm → Bool
  | .awareStr _ => true
  | _ => false

/-- A batch whose processed datetimes mix timezone-aware and naive values:
on such a batch `sorted(processed_messages, key=...)` must compare an aware
datetime with a naive one and raises `TypeError`. -/
def mixesAware (msgs : List RMsg) : Bool :=
  (msgs.any fun m => tsAware m.ts) && (msgs.any fun m => !tsAware m.ts)

/-- `detect_temporal_anomalies` including the error path of its `sorted(...)`
call: on a nonempty batch mixing aware and naive datetimes the call raises
`TypeError` (modelled as `none`) instead of returning a report. -/
def detect_temporal_anomalies_tz (msgs : List RMsg) (threshold : Nat)
    (now : Int) : Option AnomalyReport :=
  if msgs.isEmpty then some ⟨[], []⟩
  else if mixesAware msgs then none
  else some (detect_temporal_anomalies (msgs.map eraseMsg) threshold now)

/-- `analyze_contact_patterns` including the error path of its `sorted(...)`
call, as in `detect_temporal_anomalies_tz`. -/
def analyze_contact_patterns_tz (msgs : List RMsg) (windowHours : Int)
    (now : Int) : Option ContactReport :=
  if msgs.isEmpty then some ⟨[], [], []⟩
  else if mixesAware msgs then none
  else some (analyze_contact_patterns (msgs.map eraseMsg) windowHours now)

/-! ## Chain-of-custody lemmas -/

/-- The three checks `verify_chain_integrity` runs on one row given the
running previous hash. -/
def stepOk (acc : Option Digest) (r : Row) : Prop :=
  (∀ p, acc = some p → r.previous_hash = some p) ∧
  digestOf (storedCore r) acc = r.hash_value ∧
  sigOf defaultKey (storedCore r) acc = r.signature

/-- The running previous hash after scanning a block of rows. -/
def accAfter (acc : Option Digest) : List Row → Option Digest
  | [] => acc
  | r :: rs => accAfter (some r.hash_value) rs

/-- A mutation of a single stored value column of a row (the autoincrement
primary key is not a value column). -/
inductive FieldMut where
  | mTimestamp (v : String) : FieldMut
  | mAction (v : String) : FieldMut
  | mActor (v : String) : FieldMut
  | mSourceFile (v : Option String) : FieldMut
  | mLineNumbers (v : Option JVal) : FieldMut
  | mQuery (v : Option String) : FieldMut
  | mResultsCount (v : Option Int) : FieldMut
  | mConfidence (v : Option Int) : FieldMut
  | mDetails (v : Option JVal) : FieldMut
  | mHashValue (v : Digest) : FieldMut
  | mPreviousHash (v : Option Digest) : FieldMut
  | mSignature (v : Sig) : FieldMut
deriving DecidableEq, Repr

/-- Overwrite the mutated column with the new value. -/
def applyMut (m : FieldMut) (r : Row) : Row :=
  match m with
  | .mTimestamp v => { r with timestamp := v }
  | .mAction v => { r with action := v }
  | .mActor v => { r with actor := v }
  | .mSourceFile v => { r with source_file := v }
  | .mLineNumbers v => { r with line_numbers := v }
  | .mQuery v => { r with query := v }
  | .mResultsCount v => { r with results_count := v }
  | .mConfidence v => { r with confidence := v }
  | .mDetails v => { r with details := v }
  | .mHashValue v => { r with hash_value := v }
  | .mPreviousHash v => { r with previous_hash := v }
  | .mSignature v => { r with signature := v }

/-- Whether the mutation targets the `previous_hash` column. -/
def isPrevMut : FieldMut → Bool
  | .mPreviousHash _ => true
  | _ => false

/-- Whether the mutation targets one of the nine data columns (those that
enter the hashed `entry_data`). -/
def isDataMut : FieldMut → Bool
  | .mHashValue _ => false
  | .mPreviousHash _ => false
  | .mSignature _ => false
  | _ => true

/-- A typical `log_action` call: a file upload audit entry. -/
def sampleUpload : ActionInput :=
  ⟨"2024-01-01T10:00:00", "file_upload", "system", some "report.txt",
   none, none, none, none, none⟩

/-- A typical `log_action` call: a search audit entry. -/
def sampleSearch : ActionInput :=
  ⟨"2024-01-01T10:05:00", "search_query", "investigator", none, none,
   some "bitcoin", some 3, none, none⟩

/-- A `log_action` call with a list-valued `line_numbers` argument, as the
insert statement of the source explicitly anticipates. -/
def sampleParse : ActionInput :=
  ⟨"2024-01-01T10:10:00", "parse_lines", "system", some "report.txt",
   some (JVal.jarr [JLeaf.lnum 1, JLeaf.lnum 2]), none, none, none, none⟩

/-- The stored log after two plain appends. -/
def chainTwo : List Row :=
  (log_action_default (log_action_default [] sampleUpload).2 sampleSearch).2

/-- `if not sender or not recipient: continue` — a processed message enters
the contact dictionaries iff both endpoints are nonempty. -/
def isValid (m : PMsg) : Bool :=
  decide (¬(m.msg.sender = "" ∨ m.msg.recipient = ""))

/-- The messages of the directed pair `(s, r)` among those the contact
analysis keeps. -/
def pairFilter (s r : String) (m : PMsg) : Bool :=
  isValid m && decide (m.msg.sender = s) && decide (m.msg.recipient = r)

/-- The message list stored under `contact_graph[s][r]` (empty when absent). -/
def glist (g : List (String × List (String × List PMsg))) (s r : String) :
    List PMsg :=
  (alookup r ((alookup s g).getD [])).getD []

/-- The count stored under `contact_graph[s][r]` of a serialized report
(0 when absent). -/
def graphCount (rep : ContactReport) (s r : String) : Nat :=
  (alookup r ((alookup s rep.contact_graph).getD [])).getD 0

/-- The first-contact time of the pair `(s, r)`: the `datetime` of the first
kept message of the pair in chronological order. -/
def firstDt (msgs : List Msg) (now : Int) (s r : String) : Option Int :=
  ((sortByDt (processMessages now msgs)).filter (pairFilter s r)).head?.map
    (fun m => m.dt)

/-- The total number of kept messages of the pair `(s, r)` in the batch. -/
def pairCount (msgs : List Msg) (now : Int) (s r : String) : Nat :=
  ((processMessages now msgs).filter (pairFilter s r)).length

/-- The number of kept messages of the pair `(s, r)` on calendar day `d`. -/
def dayPairCount (msgs : List Msg) (now : Int) (d : Int) (s r : String) : Nat :=
  ((processMessages now msgs).filter
    (fun m => pairFilter s r m && decide (dayKey m.dt = d))).length

/-- The distinct calendar days of the kept messages, in ascending order
(the days "present in the data"). -/
def distinctDays (msgs : List Msg) (now : Int) : List Int :=
  sortByKey (fun d => d)
    ((((processMessages now msgs).filter isValid).map (fun m => dayKey m.dt)).dedup)

theorem verifyTail_eq_of_ok {acc : Option Digest} {r : Row} {rest : Bool × String}
    (hd : digestOf (storedCore r) acc = r.hash_value)
    (hs : sigOf defaultKey (storedCore r) acc = r.signature) :
    verifyTail acc r rest = rest := by
  simp [verifyTail, hd, hs]

theorem verifyTail_hash_ne {acc : Option Digest} {r : Row} {rest : Bool × String}
    (hd : digestOf (storedCore r) acc ≠ r.hash_value) :
    verifyTail acc r rest = (false, hashMsgAt r.rid) := by
  simp [verifyTail, hd]

theorem verifyTail_sig_ne {acc : Option Digest} {r : Row} {rest : Bool × String}
    (hd : digestOf (storedCore r) acc = r.hash_value)
    (hs : sigOf defaultKey (storedCore r) acc ≠ r.signature) :
    verifyTail acc r rest = (false, sigMsgAt r.rid) := by
  simp [verifyTail, hd, hs]

theorem verifyTail_true {acc : Option Digest} {r : Row} {rest : Bool × String}
    (h : (verifyTail acc r rest).1 = true) :
    digestOf (storedCore r) acc = r.hash_value ∧
      sigOf defaultKey (storedCore r) acc = r.signature ∧ rest.1 = true := by
  by_cases hd : digestOf (storedCore r) acc = r.hash_value
  · by_cases hs : sigOf defaultKey (storedCore r) acc = r.signature
    · refine ⟨hd, hs, ?_⟩
      simpa [verifyTail, hd, hs] using h
    · simp [verifyTail, hd, hs] at h
  · simp [verifyTail, hd] at h

theorem verifyFrom_cons_none (r : Row) (rs : List Row) :
    verifyFrom none (r :: rs) = verifyTail none r (verifyFrom (some r.hash_value) rs) := rfl

theorem verifyFrom_cons_some_ok {p : Digest} {r : Row} (rs : List Row)
    (hprev : r.previous_hash = some p) :
    verifyFrom (some p) (r :: rs) =
      verifyTail (some p) r (verifyFrom (some r.hash_value) rs) := by
  simp [verifyFrom, hprev]

theorem verifyFrom_cons_some_bad {p : Digest} {r : Row} (rs : List Row)
    (hprev : r.previous_hash ≠ some p) :
    verifyFrom (some p) (r :: rs) = (false, prevMsgAt r.rid) := by
  simp [verifyFrom, hprev]

theorem verifyFrom_cons_ok {acc : Option Digest} {r : Row} {rs : List Row}
    (h : stepOk acc r) :
    verifyFrom acc (r :: rs) = verifyFrom (some r.hash_value) rs := by
  obtain ⟨h1, h2, h3⟩ := h
  cases acc with
  | none => rw [verifyFrom_cons_none, verifyTail_eq_of_ok h2 h3]
  | some p => rw [verifyFrom_cons_some_ok rs (h1 p rfl), verifyTail_eq_of_ok h2 h3]

theorem stepOk_of_verifyFrom_true {acc : Option Digest} {r : Row} {rs : List Row}
    (h : (verifyFrom acc (r :: rs)).1 = true) : stepOk acc r := by
  cases acc with
  | none =>
    rw [verifyFrom_cons_none] at h
    obtain ⟨hd, hs, _⟩ := verifyTail_true h
    refine ⟨?_, hd, hs⟩
    intro p hp
    exact Option.noConfusion hp
  | some p =>
    by_cases hprev : r.previous_hash = some p
    · rw [verifyFrom_cons_some_ok rs hprev] at h
      obtain ⟨hd, hs, _⟩ := verifyTail_true h
      refine ⟨?_, hd, hs⟩
      intro q hq
      injection hq with hpq
      subst hpq
      exact hprev
    · rw [verifyFrom_cons_some_bad rs hprev] at h
      simp at h

theorem verifyFrom_append_of_true {xs : List Row} :
    ∀ {acc : Option Digest} {ys : List Row}, (verifyFrom acc xs).1 = true →
      verifyFrom acc (xs ++ ys) = verifyFrom (accAfter acc xs) ys := by
  induction xs with
  | nil => intro acc ys _; simp [accAfter]
  | cons r rs ih =>
    intro acc ys h
    have hstep := stepOk_of_verifyFrom_true h
    rw [verifyFrom_cons_ok hstep] at h
    rw [List.cons_append, verifyFrom_cons_ok hstep, accAfter, ih h]

theorem verifyFrom_of_append_true {xs : List Row} :
    ∀ {acc : Option Digest} {ys : List Row},
      (verifyFrom acc (xs ++ ys)).1 = true → (verifyFrom acc xs).1 = true := by
  induction xs with
  | nil => intro acc ys _; simp [verifyFrom]
  | cons r rs ih =>
    intro acc ys h
    rw [List.cons_append] at h
    have hstep := stepOk_of_verifyFrom_true h
    rw [verifyFrom_cons_ok hstep] at h ⊢
    exact ih h

theorem accAfter_isSome {xs : List Row} (hne : xs ≠ []) (acc : Option Digest) :
    ∃ p, accAfter acc xs = some p := by
  induction xs generalizing acc with
  | nil => exact absurd rfl hne
  | cons r rs ih =>
    cases rs with
    | nil => exact ⟨r.hash_value, rfl⟩
    | cons r2 rs2 => exact ih (by simp) (some r.hash_value)

theorem digestOf_core_inj {c c' : EntryCore} {acc : Option Digest}
    (h : digestOf c acc = digestOf c' acc) : c = c' := by
  cases acc <;> simpa [digestOf] using h

theorem verifyFrom_data_fail {acc : Option Digest} {r' r : Row} {rs : List Row}
    (hstep : stepOk acc r)
    (hprev : r'.previous_hash = r.previous_hash)
    (hhash : r'.hash_value = r.hash_value)
    (hcore : storedCore r' ≠ storedCore r) :
    verifyFrom acc (r' :: rs) = (false, hashMsgAt r'.rid) := by
  obtain ⟨h1, h2, h3⟩ := hstep
  have hne : digestOf (storedCore r') acc ≠ r'.hash_value := by
    rw [hhash, ← h2]
    intro he
    exact hcore (digestOf_core_inj he)
  cases acc with
  | none => rw [verifyFrom_cons_none, verifyTail_hash_ne hne]
  | some p =>
    rw [verifyFrom_cons_some_ok rs (hprev.trans (h1 p rfl)),
        verifyTail_hash_ne hne]

theorem verifyFrom_prev_fail {p : Digest} {r' r : Row} {rs : List Row}
    (hprev : r'.previous_hash ≠ some p) (hrid : r'.rid = r.rid) :
    verifyFrom (some p) (r' :: rs) = (false, prevMsgAt r.rid) := by
  rw [verifyFrom_cons_some_bad rs hprev, hrid]

theorem verifyFrom_hash_fail {acc : Option Digest} {r' r : Row} {rs : List Row}
    (hstep : stepOk acc r)
    (hprev : r'.previous_hash = r.previous_hash)
    (hcore : storedCore r' = storedCore r)
    (hhash : r'.hash_value ≠ r.hash_value) :
    verifyFrom acc (r' :: rs) = (false, hashMsgAt r'.rid) := by
  obtain ⟨h1, h2, h3⟩ := hstep
  have hne : digestOf (storedCore r') acc ≠ r'.hash_value := by
    rw [hcore, h2]
    exact fun he => hhash he.symm
  cases acc with
  | none => rw [verifyFrom_cons_none, verifyTail_hash_ne hne]
  | some p =>
    rw [verifyFrom_cons_some_ok rs (hprev.trans (h1 p rfl)),
        verifyTail_hash_ne hne]

theorem verifyFrom_sig_fail {acc : Option Digest} {r' r : Row} {rs : List Row}
    (hstep : stepOk acc r)
    (hprev : r'.previous_hash = r.previous_hash)
    (hcore : storedCore r' = storedCore r)
    (hhash : r'.hash_value = r.hash_value)
    (hsig : r'.signature ≠ r.signature) :
    verifyFrom acc (r' :: rs) = (false, sigMsgAt r'.rid) := by
  obtain ⟨h1, h2, h3⟩ := hstep
  have hd : digestOf (storedCore r') acc = r'.hash_value := by
    rw [hcore, hhash]; exact h2
  have hne : sigOf defaultKey (storedCore r') acc ≠ r'.signature := by
    rw [hcore, h3]
    exact fun he => hsig he.symm
  cases acc with
  | none => rw [verifyFrom_cons_none, verifyTail_sig_ne hd hne]
  | some p =>
    rw [verifyFrom_cons_some_ok rs (hprev.trans (h1 p rfl)),
        verifyTail_sig_ne hd hne]

theorem list_set_eq_split {α : Type} :
    ∀ (l : List α) (i : Nat), i < l.length → ∀ (x : α),
      l.set i x = l.take i ++ x :: l.drop (i + 1) := by
  intro l
  induction l with
  | nil => intro i hi; simp at hi
  | cons a as ih =>
    intro i hi x
    cases i with
    | zero => simp
    | succ j =>
      have hj : j < as.length := by simpa using hi
      show a :: as.set j x = a :: (as.take j ++ x :: as.drop (j + 1))
      rw [ih j hj x]

theorem list_get_eq_split {α : Type} :
    ∀ (l : List α) (i : Nat) (hi : i < l.length),
      l = l.take i ++ l.get ⟨i, hi⟩ :: l.drop (i + 1) := by
  intro l
  induction l with
  | nil => intro i hi; simp at hi
  | cons a as ih =>
    intro i hi
    cases i with
    | zero => simp
    | succ j =>
      have hj : j < as.length := by simpa using hi
      show a :: as = a :: (as.take j ++ as.get ⟨j, hj⟩ :: as.drop (j + 1))
      rw [← ih j hj]

theorem applyMut_rid (m : FieldMut) (r : Row) : (applyMut m r).rid = r.rid := by
  cases m <;> rfl

theorem storedCore_applyMut_ne {m : FieldMut} {r : Row}
    (hdata : isDataMut m = true) (hch : applyMut m r ≠ r) :
    storedCore (applyMut m r) ≠ storedCore r := by
  intro hc
  apply hch
  cases m <;> simp [isDataMut] at hdata <;> cases r <;>
    simp_all [applyMut, storedCore]

theorem verify_chain_integrity_ne_nil {rows : List Row} (h : rows ≠ []) :
    verify_chain_integrity rows = verifyFrom none rows := by
  cases rows with
  | nil => exact absurd rfl h
  | cons a as => simp [verify_chain_integrity]

theorem sig_key_of_verifyFrom_true :
    ∀ {rows : List Row} {acc : Option Digest},
      (verifyFrom acc rows).1 = true → ∀ r ∈ rows, r.signature.key = defaultKey := by
  intro rows
  induction rows with
  | nil => intro acc _ r hr; simp at hr
  | cons a as ih =>
    intro acc h r hr
    have hstep := stepOk_of_verifyFrom_true h
    rw [verifyFrom_cons_ok hstep] at h
    rcases List.mem_cons.mp hr with hra | hras
    · subst hra
      rw [← hstep.2.2]
      rfl
    · exact ih h r hras

/-! ## Chain-of-custody claim theorems -/

/-- C1, code bug witness: after a single successful `log_action` append whose
`line_numbers` argument is the list `[1, 2]` (no tampering at all),
`verify_chain_integrity` reports a hash mismatch at entry 1 instead of
success — the hash is computed over the raw list while the stored and
re-verified column holds its JSON string. -/
theorem claim_c1_append_then_verify_fails :
    verify_chain_integrity (log_action_default [] sampleParse).2 =
      (false, "Hash mismatch at entry 1") := by decide

/-- C2, amended: on any stored log that `verify_chain_integrity` accepts,
mutating any single stored value column of the entry at position `i` (to a
different value) makes verification fail with a message naming exactly that
entry's id — except a mutation of the first entry's `previous_hash`, which
is excluded here because it is undetected (see the counterexample). -/
theorem claim_c2_tamper_detected (rows : List Row) (i : Nat) (m : FieldMut)
    (hi : i < rows.length)
    (hok : (verify_chain_integrity rows).1 = true)
    (hch : applyMut m (rows.get ⟨i, hi⟩) ≠ rows.get ⟨i, hi⟩)
    (hexc : ¬(i = 0 ∧ isPrevMut m = true)) :
    (verify_chain_integrity (rows.set i (applyMut m (rows.get ⟨i, hi⟩)))).1 = false ∧
      ((verify_chain_integrity (rows.set i (applyMut m (rows.get ⟨i, hi⟩)))).2 =
          prevMsgAt (rows.get ⟨i, hi⟩).rid ∨
        (verify_chain_integrity (rows.set i (applyMut m (rows.get ⟨i, hi⟩)))).2 =
          hashMsgAt (rows.get ⟨i, hi⟩).rid ∨
        (verify_chain_integrity (rows.set i (applyMut m (rows.get ⟨i, hi⟩)))).2 =
          sigMsgAt (rows.get ⟨i, hi⟩).rid) := by
  set r := rows.get ⟨i, hi⟩ with hr
  have hrows_ne : rows ≠ [] := by
    intro h0
    rw [h0] at hi
    simp at hi
  have hsplit : rows = rows.take i ++ r :: rows.drop (i + 1) := list_get_eq_split rows i hi
  have hset_ne : rows.set i (applyMut m r) ≠ [] := by
    intro h0
    have := congrArg List.length h0
    simp at this
    rw [this] at hi
    simp at hi
  have hokF : (verifyFrom none rows).1 = true := by
    rwa [verify_chain_integrity_ne_nil hrows_ne] at hok
  have hpre_true : (verifyFrom none (rows.take i)).1 = true := by
    apply @verifyFrom_of_append_true (rows.take i) none (r :: rows.drop (i + 1))
    rw [← hsplit]
    exact hokF
  set A := accAfter none (rows.take i) with hA
  have hred0 : verifyFrom none rows = verifyFrom A (r :: rows.drop (i + 1)) := by
    conv_lhs => rw [hsplit]
    exact verifyFrom_append_of_true hpre_true
  have hstep : stepOk A r := by
    apply @stepOk_of_verifyFrom_true A r (rows.drop (i + 1))
    rw [← hred0]
    exact hokF
  have hmut : verify_chain_integrity (rows.set i (applyMut m r)) =
      verifyFrom A (applyMut m r :: rows.drop (i + 1)) := by
    rw [verify_chain_integrity_ne_nil hset_ne, list_set_eq_split rows i hi (applyMut m r),
        verifyFrom_append_of_true hpre_true]
  have key : verifyFrom A (applyMut m r :: rows.drop (i + 1)) = (false, prevMsgAt r.rid) ∨
      verifyFrom A (applyMut m r :: rows.drop (i + 1)) = (false, hashMsgAt r.rid) ∨
      verifyFrom A (applyMut m r :: rows.drop (i + 1)) = (false, sigMsgAt r.rid) := by
    cases m with
    | mPreviousHash v =>
      have hi0 : i ≠ 0 := fun h0 => hexc ⟨h0, rfl⟩
      have htake_ne : rows.take i ≠ [] := by
        cases rows with
        | nil => simp at hi
        | cons a as =>
          cases i with
          | zero => exact absurd rfl hi0
          | succ j => simp
      obtain ⟨p, hp⟩ := accAfter_isSome htake_ne none
      rw [← hA] at hp
      have hrprev : r.previous_hash = some p := hstep.1 p hp
      have hvne : (applyMut (FieldMut.mPreviousHash v) r).previous_hash ≠ some p := by
        show v ≠ some p
        intro hvp
        apply hch
        show ({ r with previous_hash := v } : Row) = r
        rw [hvp, ← hrprev]
      left
      rw [hp]
      exact verifyFrom_prev_fail hvne (applyMut_rid _ r)
    | mHashValue v =>
      right; left
      have hvne : (applyMut (FieldMut.mHashValue v) r).hash_value ≠ r.hash_value := by
        show v ≠ r.hash_value
        intro hv
        apply hch
        show ({ r with hash_value := v } : Row) = r
        rw [hv]
      have hres := @verifyFrom_hash_fail A (applyMut (FieldMut.mHashValue v) r) r
        (rows.drop (i + 1)) hstep rfl rfl hvne
      rw [hres, applyMut_rid]
    | mSignature v =>
      right; right
      have hvne : (applyMut (FieldMut.mSignature v) r).signature ≠ r.signature := by
        show v ≠ r.signature
        intro hv
        apply hch
        show ({ r with signature := v } : Row) = r
        rw [hv]
      have hres := @verifyFrom_sig_fail A (applyMut (FieldMut.mSignature v) r) r
        (rows.drop (i + 1)) hstep rfl rfl rfl hvne
      rw [hres, applyMut_rid]
    | mTimestamp v =>
      right; left
      have hres := @verifyFrom_data_fail A (applyMut (FieldMut.mTimestamp v) r) r
        (rows.drop (i + 1)) hstep rfl rfl
        (@storedCore_applyMut_ne (FieldMut.mTimestamp v) r rfl hch)
      rw [hres, applyMut_rid]
    | mAction v =>
      right; left
      have hres := @verifyFrom_data_fail A (applyMut (FieldMut.mAction v) r) r
        (rows.drop (i + 1)) hstep rfl rfl
        (@storedCore_applyMut_ne (FieldMut.mAction v) r rfl hch)
      rw [hres, applyMut_rid]
    | mActor v =>
      right; left
      have hres := @verifyFrom_data_fail A (applyMut (FieldMut.mActor v) r) r
        (rows.drop (i + 1)) hstep rfl rfl
        (@storedCore_applyMut_ne (FieldMut.mActor v) r rfl hch)
      rw [hres, applyMut_rid]
    | mSourceFile v =>
      right; left
      have hres := @verifyFrom_data_fail A (applyMut (FieldMut.mSourceFile v) r) r
        (rows.drop (i + 1)) hstep rfl rfl
        (@storedCore_applyMut_ne (FieldMut.mSourceFile v) r rfl hch)
      rw [hres, applyMut_rid]
    | mLineNumbers v =>
      right; left
      have hres := @verifyFrom_data_fail A (applyMut (FieldMut.mLineNumbers v) r) r
        (rows.drop (i + 1)) hstep rfl rfl
        (@storedCore_applyMut_ne (FieldMut.mLineNumbers v) r rfl hch)
      rw [hres, applyMut_rid]
    | mQuery v =>
      right; left
      have hres := @verifyFrom_data_fail A (applyMut (FieldMut.mQuery v) r) r
        (rows.drop (i + 1)) hstep rfl rfl
        (@storedCore_applyMut_ne (FieldMut.mQuery v) r rfl hch)
      rw [hres, applyMut_rid]
    | mResultsCount v =>
      right; left
      have hres := @verifyFrom_data_fail A (applyMut (FieldMut.mResultsCount v) r) r
        (rows.drop (i + 1)) hstep rfl rfl
        (@storedCore_applyMut_ne (FieldMut.mResultsCount v) r rfl hch)
      rw [hres, applyMut_rid]
    | mConfidence v =>
      right; left
      have hres := @verifyFrom_data_fail A (applyMut (FieldMut.mConfidence v) r) r
        (rows.drop (i + 1)) hstep rfl rfl
        (@storedCore_applyMut_ne (FieldMut.mConfidence v) r rfl hch)
      rw [hres, applyMut_rid]
    | mDetails v =>
      right; left
      have hres := @verifyFrom_data_fail A (applyMut (FieldMut.mDetails v) r) r
        (rows.drop (i + 1)) hstep rfl rfl
        (@storedCore_applyMut_ne (FieldMut.mDetails v) r rfl hch)
      rw [hres, applyMut_rid]
  refine ⟨?_, ?_⟩
  · rcases key with h | h | h <;> rw [hmut, h]
  · rcases key with h | h | h
    · exact Or.inl (by rw [hmut, h])
    · exact Or.inr (Or.inl (by rw [hmut, h]))
    · exact Or.inr (Or.inr (by rw [hmut, h]))

/-- C2, counterexample: overwriting the (NULL) `previous_hash` column of the
very first entry with an arbitrary digest is a genuine single-field mutation,
yet `verify_chain_integrity` still reports full success — the scan skips the
`previous_hash` comparison while its running value is `None`. -/
theorem claim_c2_counterexample :
    applyMut (FieldMut.mPreviousHash
        (some (Digest.first (storedCore (computeRow defaultKey [] sampleUpload)))))
        (computeRow defaultKey [] sampleUpload) ≠ computeRow defaultKey [] sampleUpload ∧
      verify_chain_integrity ((log_action_default [] sampleUpload).2.set 0
        (applyMut (FieldMut.mPreviousHash
          (some (Digest.first (storedCore (computeRow defaultKey [] sampleUpload)))))
          (computeRow defaultKey [] sampleUpload))) =
        (true, "Chain integrity verified") := by
  refine ⟨by decide, by decide⟩

/-- C2, witness: on the two-entry chain, rewriting the `actor` column of the
second entry is detected with failure reported at that entry. -/
theorem claim_c2_witness :
    (verify_chain_integrity (chainTwo.set 1
        (applyMut (FieldMut.mActor "mallory") (chainTwo.get ⟨1, by decide⟩)))).1 = false ∧
      ((verify_chain_integrity (chainTwo.set 1
          (applyMut (FieldMut.mActor "mallory") (chainTwo.get ⟨1, by decide⟩)))).2 =
          prevMsgAt (chainTwo.get ⟨1, by decide⟩).rid ∨
        (verify_chain_integrity (chainTwo.set 1
          (applyMut (FieldMut.mActor "mallory") (chainTwo.get ⟨1, by decide⟩)))).2 =
          hashMsgAt (chainTwo.get ⟨1, by decide⟩).rid ∨
        (verify_chain_integrity (chainTwo.set 1
          (applyMut (FieldMut.mActor "mallory") (chainTwo.get ⟨1, by decide⟩)))).2 =
          sigMsgAt (chainTwo.get ⟨1, by decide⟩).rid) :=
  claim_c2_tamper_detected chainTwo 1 (FieldMut.mActor "mallory")
    (by decide) (by decide) (by decide) (by decide)

/-- C4, amended: with no key supplied, `log_action` silently signs under the
fixed built-in key `b'aie_secret_key'` (no configuration error exists), and
every entry of any log accepted by `verify_chain_integrity` is signed under
that same hard-coded key, since verification recomputes the HMAC under it
unconditionally. -/
theorem claim_c4_default_key_everywhere (st : List Row) (inp : ActionInput)
    (rows : List Row) (r : Row) (hmem : r ∈ rows)
    (hok : (verify_chain_integrity rows).1 = true) :
    ((log_action_default st inp).2.getLast?).map (fun x => x.signature.key) =
        some defaultKey ∧
      r.signature.key = defaultKey := by
  constructor
  · show ((st ++ [computeRow defaultKey st inp]).getLast?).map
      (fun x => x.signature.key) = some defaultKey
    rw [List.getLast?_concat]
    rfl
  · have hrows_ne : rows ≠ [] := by
      intro h0
      rw [h0] at hmem
      simp at hmem
    rw [verify_chain_integrity_ne_nil hrows_ne] at hok
    exact sig_key_of_verifyFrom_true hok r hmem

/-- C4, counterexample: a concrete keyless `log_action` append is signed
under the hard-coded key `b'aie_secret_key'` and then verified successfully
under that same key — so there is an input on which an audit entry is signed
and verified under a hard-coded key, and no configuration error occurs. -/
theorem claim_c4_counterexample :
    ((log_action_default [] sampleUpload).2.getLast?).map
        (fun x => x.signature.key) = some "aie_secret_key" ∧
      (verify_chain_integrity (log_action_default [] sampleUpload).2).1 = true := by
  refine ⟨by decide, by decide⟩

/-- C4, witness: the amended statement applied to a concrete append and a
concrete verified one-entry log. -/
theorem claim_c4_witness :
    ((log_action_default [] sampleSearch).2.getLast?).map
        (fun x => x.signature.key) = some defaultKey ∧
      (computeRow defaultKey [] sampleUpload).signature.key = defaultKey :=
  claim_c4_default_key_everywhere [] sampleSearch
    (log_action_default [] sampleUpload).2
    (computeRow defaultKey [] sampleUpload) (by decide) (by decide)

/-- C10: the `verify_chain_integrity` exported by `utils/anomaly_detection`
returns `True` on every input list of log entries — including arbitrarily
tampered ones — because it is `return True`, performing no hash or signature
check at all. -/
theorem claim_c10_ad_verify_always_true :
    ∀ entries : List AdEntry, adVerifyChainIntegrity entries = true :=
  fun _ => rfl

/-! ## Association-list lemmas -/

theorem alookup_eq_none {α β : Type} [DecidableEq α] (k : α) :
    ∀ g : List (α × β), alookup k g = none ↔ k ∉ g.map Prod.fst := by
  intro g
  induction g with
  | nil => simp [alookup]
  | cons kv rest ih =>
    simp only [alookup, List.map_cons, List.mem_cons]
    by_cases h : kv.1 = k
    · subst h
      simp
    · have h' : ¬k = kv.1 := fun hk => h hk.symm
      simp [h, h', ih]

theorem mem_of_alookup {α β : Type} [DecidableEq α] {k : α} {v : β} :
    ∀ {g : List (α × β)}, alookup k g = some v → (k, v) ∈ g := by
  intro g
  induction g with
  | nil => intro h; simp [alookup] at h
  | cons kv rest ih =>
    intro h
    simp only [alookup] at h
    by_cases hk : kv.1 = k
    · rw [if_pos hk] at h
      injection h with hv
      have hkv : kv = (k, v) := by
        cases kv
        simp only at hk hv
        rw [hk, hv]
      rw [← hkv]
      exact List.mem_cons_self _ _
    · rw [if_neg hk] at h
      exact List.mem_cons_of_mem kv (ih h)

theorem alookup_of_mem_nodup {α β : Type} [DecidableEq α] {k : α} {v : β} :
    ∀ {g : List (α × β)}, (g.map Prod.fst).Nodup → (k, v) ∈ g →
      alookup k g = some v := by
  intro g
  induction g with
  | nil => intro _ hm; simp at hm
  | cons kv rest ih =>
    intro hnd hm
    rw [List.map_cons, List.nodup_cons] at hnd
    rcases List.mem_cons.mp hm with heq | hmem
    · rw [← heq]
      simp [alookup]
    · have hk : kv.1 ≠ k := by
        intro hkk
        exact hnd.1 (hkk ▸ List.mem_map_of_mem Prod.fst hmem)
      simp only [alookup, if_neg hk]
      exact ih hnd.2 hmem

theorem alookup_dictUp {α β : Type} [DecidableEq α] (k : α) (dflt : β)
    (f : β → β) (k' : α) :
    ∀ g : List (α × β), alookup k' (dictUp k dflt f g) =
      if k' = k then some (f ((alookup k g).getD dflt)) else alookup k' g := by
  intro g
  induction g with
  | nil =>
    by_cases h : k = k'
    · subst h
      simp [dictUp, alookup]
    · have h' : ¬k' = k := fun hk => h hk.symm
      simp [dictUp, alookup, h, h']
  | cons kv rest ih =>
    by_cases hk : kv.1 = k
    · subst hk
      by_cases h' : kv.1 = k'
      · subst h'
        simp [dictUp, alookup]
      · have h'' : ¬k' = kv.1 := fun hkk => h' hkk.symm
        simp [dictUp, alookup, h', h'']
    · by_cases h' : kv.1 = k'
      · subst h'
        simp [dictUp, alookup, hk]
      · have h'' : ¬k' = kv.1 := fun hkk => h' hkk.symm
        simp only [dictUp, if_neg hk, alookup, if_neg h', ih]

theorem dictUp_keys {α β : Type} [DecidableEq α] (k : α) (dflt : β) (f : β → β) :
    ∀ g : List (α × β), (dictUp k dflt f g).map Prod.fst =
      if (alookup k g).isSome then g.map Prod.fst else g.map Prod.fst ++ [k] := by
  intro g
  induction g with
  | nil => simp [dictUp, alookup]
  | cons kv rest ih =>
    by_cases hk : kv.1 = k
    · simp [dictUp, alookup, hk]
    · simp only [dictUp, if_neg hk, List.map_cons, alookup, ih]
      by_cases hs : (alookup k rest).isSome <;> simp [hs]

theorem dictUp_keys_nodup {α β : Type} [DecidableEq α] {k : α} {dflt : β}
    {f : β → β} {g : List (α × β)} (h : (g.map Prod.fst).Nodup) :
    ((dictUp k dflt f g).map Prod.fst).Nodup := by
  rw [dictUp_keys]
  by_cases hs : (alookup k g).isSome
  · simp [hs, h]
  · have hnone : alookup k g = none := by
      cases halo : alookup k g
      · rfl
      · rw [halo] at hs; simp at hs
    have hk : k ∉ g.map Prod.fst := (alookup_eq_none k g).mp hnone
    simp [hs, List.nodup_append, h, hk]

theorem alookup_map_val {α β γ : Type} [DecidableEq α] (k : α) (f : β → γ) :
    ∀ g : List (α × β),
      alookup k (g.map (fun kv => (kv.1, f kv.2))) = (alookup k g).map f := by
  intro g
  induction g with
  | nil => rfl
  | cons kv rest ih =>
    by_cases h : kv.1 = k <;> simp [alookup, h, ih]

/-! ## Sorting lemmas -/

theorem insertLe_perm {α : Type} (key : α → Int) (a : α) :
    ∀ l : List α, List.Perm (insertLe key a l) (a :: l) := by
  intro l
  induction l with
  | nil => exact List.Perm.refl _
  | cons x xs ih =>
    simp only [insertLe]
    by_cases h : key a ≤ key x
    · rw [if_pos h]
    · rw [if_neg h]
      exact List.Perm.trans (List.Perm.cons x ih) (List.Perm.swap a x xs)

theorem sortByKey_perm {α : Type} (key : α → Int) (l : List α) :
    List.Perm (sortByKey key l) l := by
  induction l with
  | nil => exact List.Perm.refl _
  | cons a as ih =>
    exact List.Perm.trans (insertLe_perm key a (sortByKey key as))
      (List.Perm.cons a ih)

theorem insertLe_pairwise {α : Type} (key : α → Int) (a : α) :
    ∀ {l : List α}, l.Pairwise (fun x y => key x ≤ key y) →
      (insertLe key a l).Pairwise (fun x y => key x ≤ key y) := by
  intro l
  induction l with
  | nil => intro _; simp [insertLe]
  | cons x xs ih =>
    intro h
    rw [List.pairwise_cons] at h
    obtain ⟨hx, hxs⟩ := h
    simp only [insertLe]
    by_cases hax : key a ≤ key x
    · rw [if_pos hax]
      refine List.Pairwise.cons ?_ (List.Pairwise.cons hx hxs)
      intro y hy
      rcases List.mem_cons.mp hy with rfl | hy'
      · exact hax
      · exact le_trans hax (hx y hy')
    · rw [if_neg hax]
      refine List.Pairwise.cons ?_ (ih hxs)
      intro y hy
      rcases List.mem_cons.mp ((insertLe_perm key a xs).mem_iff.mp hy) with rfl | hy'
      · exact le_of_not_le hax
      · exact hx y hy'

theorem sortByKey_pairwise {α : Type} (key : α → Int) (l : List α) :
    (sortByKey key l).Pairwise (fun x y => key x ≤ key y) := by
  induction l with
  | nil => simp [sortByKey]
  | cons a as ih => exact insertLe_pairwise key a ih

theorem sortByDt_perm (l : List PMsg) : List.Perm (sortByDt l) l :=
  sortByKey_perm _ l

theorem sortByDt_pairwise (l : List PMsg) :
    (sortByDt l).Pairwise (fun a b => a.dt ≤ b.dt) :=
  sortByKey_pairwise _ l

/-! ## Hour-bucket lemmas -/

theorem groupByHour_lookup :
    ∀ (l : List PMsg) (acc : List (Int × List PMsg)) (k : Int),
      (alookup k (l.foldl (fun g m => groupAdd (hourKey m.dt) m g) acc)).getD [] =
        (alookup k acc).getD [] ++ l.filter (fun m => decide (hourKey m.dt = k)) := by
  intro l
  induction l with
  | nil => intro acc k; simp
  | cons m rest ih =>
    intro acc k
    simp only [List.foldl_cons, List.filter_cons]
    rw [ih]
    by_cases h : hourKey m.dt = k
    · subst h
      simp [groupAdd, alookup_dictUp]
    · have h' : ¬k = hourKey m.dt := fun hk => h hk.symm
      simp [groupAdd, alookup_dictUp, h, h']

theorem groupByHour_keys_nodup :
    ∀ (l : List PMsg) (acc : List (Int × List PMsg)),
      (acc.map Prod.fst).Nodup →
      (((l.foldl (fun g m => groupAdd (hourKey m.dt) m g) acc)).map Prod.fst).Nodup := by
  intro l
  induction l with
  | nil => intro acc h; exact h
  | cons m rest ih =>
    intro acc h
    exact ih _ (dictUp_keys_nodup h)

theorem groupByHour_entry_eq {k : Int} {ms : List PMsg} {l : List PMsg}
    (hmem : (k, ms) ∈ groupByHour l) :
    ms = l.filter (fun m => decide (hourKey m.dt = k)) := by
  have hnd := groupByHour_keys_nodup l [] (by simp)
  have hlook := alookup_of_mem_nodup hnd hmem
  have := groupByHour_lookup l [] k
  rw [hlook] at this
  simpa [alookup] using this

theorem groupByHour_complete {k : Int} {l : List PMsg}
    (hne : l.filter (fun m => decide (hourKey m.dt = k)) ≠ []) :
    (k, l.filter (fun m => decide (hourKey m.dt = k))) ∈ groupByHour l := by
  have hval := groupByHour_lookup l [] k
  simp only [alookup, Option.getD_none, List.nil_append] at hval
  cases halo : alookup k (groupByHour l) with
  | none =>
    rw [groupByHour] at halo
    rw [halo] at hval
    simp only [Option.getD_none] at hval
    exact absurd hval.symm hne
  | some ms =>
    rw [groupByHour] at halo
    rw [halo] at hval
    simp only [Option.getD_some] at hval
    rw [← hval]
    exact mem_of_alookup halo

/-- C8: `detect_temporal_anomalies` classifies a message as odd-hour exactly
when its hour of day lies in `[1,4]` inclusive (so among hours
0,1,2,4,5,23 exactly 1, 2 and 4 qualify), and `odd_hour_messages` is in
chronological order. -/
theorem claim_c8_odd_hours (msgs : List Msg) (threshold : Nat) (now : Int) :
    (∀ pm : PMsg,
        pm ∈ (detect_temporal_anomalies msgs threshold now).odd_hour_messages ↔
          (pm ∈ processMessages now msgs ∧
            1 ≤ hourOfDay pm.dt ∧ hourOfDay pm.dt ≤ 4)) ∧
      (detect_temporal_anomalies msgs threshold now).odd_hour_messages.Pairwise
        (fun a b => a.dt ≤ b.dt) := by
  cases msgs with
  | nil => simp [detect_temporal_anomalies, processMessages]
  | cons m0 rest =>
    rw [detect_temporal_anomalies, if_neg (by simp)]
    rw [detectCore, if_neg (by simp [processMessages])]
    constructor
    · intro pm
      simp only [List.mem_filter]
      constructor
      · rintro ⟨hmem, hcond⟩
        simp only [Bool.and_eq_true, decide_eq_true_eq] at hcond
        exact ⟨(sortByDt_perm _).mem_iff.mp hmem, hcond.1, hcond.2⟩
      · rintro ⟨hmem, h1, h2⟩
        refine ⟨(sortByDt_perm _).mem_iff.mpr hmem, ?_⟩
        simp [h1, h2]
    · exact List.Pairwise.sublist (List.filter_sublist _) (sortByDt_pairwise _)

/-- C7: `detect_temporal_anomalies` reports exactly the calendar-hour buckets
whose size reaches the threshold (≥, so exactly-threshold buckets are spikes
and one-less buckets are not); each spike carries its bucket key, the bucket's
total count, and the first up-to-5 messages of the bucket in chronological
order. -/
theorem claim_c7_spikes (msgs : List Msg) (threshold : Nat) (now : Int) :
    (∀ s ∈ (detect_temporal_anomalies msgs threshold now).message_spikes,
        s.count = ((sortByDt (processMessages now msgs)).filter
            (fun m => decide (hourKey m.dt = s.hour))).length ∧
          threshold ≤ s.count ∧
          s.messages = ((sortByDt (processMessages now msgs)).filter
            (fun m => decide (hourKey m.dt = s.hour))).take 5 ∧
          s.messages.Pairwise (fun a b => a.dt ≤ b.dt)) ∧
      (∀ k : Int,
        (sortByDt (processMessages now msgs)).filter
            (fun m => decide (hourKey m.dt = k)) ≠ [] →
        threshold ≤ ((sortByDt (processMessages now msgs)).filter
            (fun m => decide (hourKey m.dt = k))).length →
        ∃ s ∈ (detect_temporal_anomalies msgs threshold now).message_spikes,
          s.hour = k) := by
  cases msgs with
  | nil =>
    constructor
    · intro s hs
      simp [detect_temporal_anomalies] at hs
    · intro k hne
      simp [processMessages, sortByDt, sortByKey] at hne
  | cons m0 rest =>
    rw [detect_temporal_anomalies, if_neg (by simp)]
    rw [detectCore, if_neg (by simp [processMessages])]
    constructor
    · intro s hs
      simp only [List.mem_filterMap] at hs
      obtain ⟨g, hgmem, hf⟩ := hs
      by_cases hth : threshold ≤ g.2.length
      · rw [if_pos hth] at hf
        injection hf with hf
        obtain ⟨k, ms⟩ := g
        have hms : ms = (sortByDt (processMessages now (m0 :: rest))).filter
            (fun m => decide (hourKey m.dt = k)) := groupByHour_entry_eq hgmem
        rw [← hf]
        refine ⟨by rw [hms], hth, by rw [hms], ?_⟩
        exact List.Pairwise.sublist
          (List.Sublist.trans (List.take_sublist 5 ms)
            (hms ▸ List.filter_sublist _))
          (sortByDt_pairwise _)
      · rw [if_neg hth] at hf
        exact Option.noConfusion hf
    · intro k hne hth
      refine ⟨⟨k, ((sortByDt (processMessages now (m0 :: rest))).filter
          (fun m => decide (hourKey m.dt = k))).length,
          ((sortByDt (processMessages now (m0 :: rest))).filter
          (fun m => decide (hourKey m.dt = k))).take 5⟩, ?_, rfl⟩
      simp only [List.mem_filterMap]
      exact ⟨(k, (sortByDt (processMessages now (m0 :: rest))).filter
          (fun m => decide (hourKey m.dt = k))),
        groupByHour_complete hne, by rw [if_pos hth]⟩

/-- C7 witness: with threshold 2, a concrete hour bucket holding two messages
is reported as a spike. -/
theorem claim_c7_witness :
    ∃ s ∈ (detect_temporal_anomalies
        [⟨0, "a", "b", Timestamp.parsed 10⟩,
         ⟨1, "c", "d", Timestamp.parsed 20⟩] 2 0).message_spikes,
      s.hour = 0 :=
  (claim_c7_spikes
      [⟨0, "a", "b", Timestamp.parsed 10⟩,
       ⟨1, "c", "d", Timestamp.parsed 20⟩] 2 0).2 0 (by decide) (by decide)

/-! ## Contact-graph fold lemmas -/

theorem alookup_append {α β : Type} [DecidableEq α] (k : α) :
    ∀ g1 g2 : List (α × β), alookup k (g1 ++ g2) =
      match alookup k g1 with
      | some v => some v
      | none => alookup k g2 := by
  intro g1 g2
  induction g1 with
  | nil => simp [alookup]
  | cons kv rest ih =>
    by_cases h : kv.1 = k <;> simp [alookup, h, ih]

theorem alookup_firstAdd (p q : String × String) (t : Int)
    (fc : List ((String × String) × Int)) :
    alookup p (firstAdd q t fc) =
      match alookup p fc with
      | some v => some v
      | none => if p = q then some t else none := by
  unfold firstAdd
  cases hq : alookup q fc with
  | some v =>
    cases hp : alookup p fc with
    | some w => simp
    | none =>
      have hpq : p ≠ q := by
        intro h
        rw [h, hq] at hp
        exact Option.noConfusion hp
      simp [hpq]
  | none =>
    rw [alookup_append]
    cases hp : alookup p fc with
    | some w => simp
    | none =>
      by_cases hpq : p = q
      · subst hpq
        simp [alookup]
      · have hqp : ¬q = p := fun h => hpq h.symm
        simp [alookup, hqp, hpq]

theorem firstAdd_keys (q : String × String) (t : Int)
    (fc : List ((String × String) × Int)) :
    (firstAdd q t fc).map Prod.fst =
      if (alookup q fc).isSome then fc.map Prod.fst
      else fc.map Prod.fst ++ [q] := by
  unfold firstAdd
  cases hq : alookup q fc <;> simp

theorem firstAdd_keys_nodup {q : String × String} {t : Int}
    {fc : List ((String × String) × Int)} (h : (fc.map Prod.fst).Nodup) :
    ((firstAdd q t fc).map Prod.fst).Nodup := by
  rw [firstAdd_keys]
  by_cases hs : (alookup q fc).isSome
  · simp [hs, h]
  · have hnone : alookup q fc = none := by
      cases halo : alookup q fc
      · rfl
      · rw [halo] at hs; simp at hs
    have hq : q ∉ fc.map Prod.fst := (alookup_eq_none q fc).mp hnone
    simp [hs, List.nodup_append, h, hq]

theorem pairFilter_iff {s r : String} {m : PMsg} :
    pairFilter s r m = true ↔
      (isValid m = true ∧ m.msg.sender = s ∧ m.msg.recipient = r) := by
  simp [pairFilter]
  tauto

theorem pairFilter_false_of_invalid {s r : String} {m : PMsg}
    (h : m.msg.sender = "" ∨ m.msg.recipient = "") :
    pairFilter s r m = false := by
  simp [pairFilter, isValid, h]

theorem glist_graphAdd (s r : String) (m : PMsg)
    (g : List (String × List (String × List PMsg))) (s' r' : String) :
    glist (graphAdd s r m g) s' r' =
      if s' = s ∧ r' = r then glist g s r ++ [m] else glist g s' r' := by
  unfold glist graphAdd
  rw [alookup_dictUp]
  by_cases hs : s' = s
  · subst hs
    rw [if_pos rfl]
    simp only [Option.getD_some]
    unfold groupAdd
    rw [alookup_dictUp]
    by_cases hr : r' = r
    · subst hr
      simp
    · simp [hr]
  · rw [if_neg hs, if_neg (fun h : s' = s ∧ r' = r => hs h.1)]

theorem fold_graph (l : List PMsg) :
    ∀ (st : BuildState) (s r : String),
      glist ((l.foldl buildStep st).graph) s r =
        glist st.graph s r ++ l.filter (pairFilter s r) := by
  induction l with
  | nil => intro st s r; simp
  | cons m rest ih =>
    intro st s r
    simp only [List.foldl_cons, List.filter_cons]
    rw [ih]
    by_cases hv : m.msg.sender = "" ∨ m.msg.recipient = ""
    · rw [show buildStep st m = st from if_pos hv,
          pairFilter_false_of_invalid hv]
      simp
    · rw [show buildStep st m =
          ⟨graphAdd m.msg.sender m.msg.recipient m st.graph,
           firstAdd (m.msg.sender, m.msg.recipient) m.dt st.firstContact,
           dailyAdd (dayKey m.dt) (m.msg.sender, m.msg.recipient) st.daily⟩
          from if_neg hv]
      show glist (graphAdd m.msg.sender m.msg.recipient m st.graph) s r ++ _ = _
      rw [glist_graphAdd]
      by_cases hp : s = m.msg.sender ∧ r = m.msg.recipient
      · obtain ⟨hps, hpr⟩ := hp
        have hpf : pairFilter s r m = true := by
          rw [pairFilter_iff]
          exact ⟨by simp [isValid, hv], hps.symm, hpr.symm⟩
        rw [if_pos ⟨hps, hpr⟩, hpf, hps, hpr]
        simp
      · have hpf : pairFilter s r m = false := by
          rw [← Bool.not_eq_true, pairFilter_iff]
          intro hc
          exact hp ⟨hc.2.1.symm, hc.2.2.symm⟩
        rw [if_neg hp, hpf]
        simp

theorem fold_first (l : List PMsg) :
    ∀ (st : BuildState) (p : String × String),
      alookup p ((l.foldl buildStep st).firstContact) =
        match alookup p st.firstContact with
        | some t => some t
        | none => ((l.filter (pairFilter p.1 p.2)).head?).map (fun m => m.dt) := by
  induction l with
  | nil =>
    intro st p
    cases h : alookup p st.firstContact <;> simp [h]
  | cons m rest ih =>
    intro st p
    simp only [List.foldl_cons, List.filter_cons]
    rw [ih]
    by_cases hv : m.msg.sender = "" ∨ m.msg.recipient = ""
    · rw [show buildStep st m = st from if_pos hv, pairFilter_false_of_invalid hv]
      simp
    · rw [show buildStep st m =
          ⟨graphAdd m.msg.sender m.msg.recipient m st.graph,
           firstAdd (m.msg.sender, m.msg.recipient) m.dt st.firstContact,
           dailyAdd (dayKey m.dt) (m.msg.sender, m.msg.recipient) st.daily⟩
          from if_neg hv]
      show (match alookup p (firstAdd (m.msg.sender, m.msg.recipient) m.dt
          st.firstContact) with
        | some t => some t
        | none => ((rest.filter (pairFilter p.1 p.2)).head?).map
            (fun x : PMsg => x.dt)) = _
      rw [alookup_firstAdd]
      by_cases hp : p = (m.msg.sender, m.msg.recipient)
      · have hpf : pairFilter p.1 p.2 m = true := by
          rw [pairFilter_iff]
          exact ⟨by simp [isValid, hv], by rw [hp], by rw [hp]⟩
        cases hfc : alookup p st.firstContact with
        | some t => simp
        | none =>
          have hpf2 : pairFilter m.msg.sender m.msg.recipient m = true := by
            rw [hp] at hpf
            simpa using hpf
          simp [hp, hpf2]
      · have hpf : pairFilter p.1 p.2 m = false := by
          rw [← Bool.not_eq_true, pairFilter_iff]
          intro hc
          apply hp
          cases p
          simp only at hc ⊢
          rw [hc.2.1, hc.2.2]
        cases hfc : alookup p st.firstContact with
        | some t => simp
        | none => simp [hp, hpf]

theorem fold_first_keys_nodup (l : List PMsg) :
    ∀ st : BuildState, ((st.firstContact).map Prod.fst).Nodup →
      (((l.foldl buildStep st).firstContact).map Prod.fst).Nodup := by
  induction l with
  | nil => intro st h; exact h
  | cons m rest ih =>
    intro st h
    simp only [List.foldl_cons]
    by_cases hv : m.msg.sender = "" ∨ m.msg.recipient = ""
    · rw [show buildStep st m = st from if_pos hv]
      exact ih st h
    · rw [show buildStep st m =
          ⟨graphAdd m.msg.sender m.msg.recipient m st.graph,
           firstAdd (m.msg.sender, m.msg.recipient) m.dt st.firstContact,
           dailyAdd (dayKey m.dt) (m.msg.sender, m.msg.recipient) st.daily⟩
          from if_neg hv]
      exact ih _ (firstAdd_keys_nodup h)

/-! ## Daily-contact fold lemmas -/

theorem dictUp_keys_mem {α β : Type} [DecidableEq α] (k : α) (dflt : β)
    (f : β → β) (g : List (α × β)) (x : α) :
    x ∈ (dictUp k dflt f g).map Prod.fst ↔ x ∈ g.map Prod.fst ∨ x = k := by
  rw [dictUp_keys]
  by_cases hs : (alookup k g).isSome
  · rw [if_pos hs]
    constructor
    · exact Or.inl
    · rintro (h | rfl)
      · exact h
      · obtain ⟨v, hv⟩ := Option.isSome_iff_exists.mp hs
        exact List.mem_map_of_mem Prod.fst (mem_of_alookup hv)
  · rw [if_neg hs]
    simp [List.mem_append]

theorem dlook_dailyAdd (d : Int) (p : String × String)
    (dm : List (Int × List ((String × String) × Nat)))
    (d' : Int) (p' : String × String) :
    alookup p' ((alookup d' (dailyAdd d p dm)).getD []) =
      if d' = d ∧ p' = p
      then some ((alookup p ((alookup d dm).getD [])).getD 0 + 1)
      else alookup p' ((alookup d' dm).getD []) := by
  unfold dailyAdd
  rw [alookup_dictUp]
  by_cases hd : d' = d
  · subst hd
    rw [if_pos rfl]
    simp only [Option.getD_some]
    unfold bumpAdd
    rw [alookup_dictUp]
    by_cases hp : p' = p
    · subst hp
      simp
    · simp [hp]
  · rw [if_neg hd, if_neg (fun h : d' = d ∧ p' = p => hd h.1)]

theorem dayCond_true {d : Int} {p : String × String} {m : PMsg}
    (hv : ¬(m.msg.sender = "" ∨ m.msg.recipient = ""))
    (hd : d = dayKey m.dt) (hp : p = (m.msg.sender, m.msg.recipient)) :
    (pairFilter p.1 p.2 m && decide (dayKey m.dt = d)) = true := by
  have hpf : pairFilter p.1 p.2 m = true := by
    rw [pairFilter_iff]
    exact ⟨by simp [isValid, hv], by rw [hp], by rw [hp]⟩
  simp [hpf, hd]

theorem dayCond_false {d : Int} {p : String × String} {m : PMsg}
    (h : ¬(d = dayKey m.dt ∧ p = (m.msg.sender, m.msg.recipient))) :
    (pairFilter p.1 p.2 m && decide (dayKey m.dt = d)) = false := by
  cases hpf : pairFilter p.1 p.2 m with
  | false => simp
  | true =>
    rw [pairFilter_iff] at hpf
    have hpp : p = (m.msg.sender, m.msg.recipient) := by
      cases p
      simp only at hpf ⊢
      rw [hpf.2.1, hpf.2.2]
    have hdd : ¬dayKey m.dt = d := fun hd => h ⟨hd.symm, hpp⟩
    simp [hdd]

theorem fold_daily_getD (l : List PMsg) :
    ∀ (st : BuildState) (d : Int) (p : String × String),
      (alookup p ((alookup d ((l.foldl buildStep st).daily)).getD [])).getD 0 =
        (alookup p ((alookup d st.daily).getD [])).getD 0 +
          (l.filter
            (fun m => pairFilter p.1 p.2 m && decide (dayKey m.dt = d))).length := by
  induction l with
  | nil => intro st d p; simp
  | cons m rest ih =>
    intro st d p
    simp only [List.foldl_cons, List.filter_cons]
    rw [ih]
    by_cases hv : m.msg.sender = "" ∨ m.msg.recipient = ""
    · rw [show buildStep st m = st from if_pos hv,
          pairFilter_false_of_invalid hv]
      simp
    · rw [show buildStep st m =
          ⟨graphAdd m.msg.sender m.msg.recipient m st.graph,
           firstAdd (m.msg.sender, m.msg.recipient) m.dt st.firstContact,
           dailyAdd (dayKey m.dt) (m.msg.sender, m.msg.recipient) st.daily⟩
          from if_neg hv]
      show (alookup p ((alookup d (dailyAdd (dayKey m.dt)
          (m.msg.sender, m.msg.recipient) st.daily)).getD [])).getD 0 + _ = _
      rw [dlook_dailyAdd]
      by_cases hdp : d = dayKey m.dt ∧ p = (m.msg.sender, m.msg.recipient)
      · rw [if_pos hdp, dayCond_true hv hdp.1 hdp.2, hdp.1, hdp.2]
        simp
        omega
      · rw [if_neg hdp, dayCond_false hdp]
        simp

theorem fold_daily_isSome (l : List PMsg) :
    ∀ (st : BuildState) (d : Int) (p : String × String),
      (alookup p ((alookup d ((l.foldl buildStep st).daily)).getD [])).isSome =
        ((alookup p ((alookup d st.daily).getD [])).isSome ||
          !(l.filter
            (fun m => pairFilter p.1 p.2 m && decide (dayKey m.dt = d))).isEmpty) := by
  induction l with
  | nil => intro st d p; simp
  | cons m rest ih =>
    intro st d p
    simp only [List.foldl_cons, List.filter_cons]
    rw [ih]
    by_cases hv : m.msg.sender = "" ∨ m.msg.recipient = ""
    · rw [show buildStep st m = st from if_pos hv,
          pairFilter_false_of_invalid hv]
      simp
    · rw [show buildStep st m =
          ⟨graphAdd m.msg.sender m.msg.recipient m st.graph,
           firstAdd (m.msg.sender, m.msg.recipient) m.dt st.firstContact,
           dailyAdd (dayKey m.dt) (m.msg.sender, m.msg.recipient) st.daily⟩
          from if_neg hv]
      have hdl := dlook_dailyAdd (dayKey m.dt) (m.msg.sender, m.msg.recipient)
        st.daily d p
      by_cases hdp : d = dayKey m.dt ∧ p = (m.msg.sender, m.msg.recipient)
      · rw [if_pos hdp] at hdl
        show ((alookup p ((alookup d (dailyAdd (dayKey m.dt)
            (m.msg.sender, m.msg.recipient) st.daily)).getD [])).isSome ||
            !(rest.filter
              (fun x => pairFilter p.1 p.2 x && decide (dayKey x.dt = d))).isEmpty) = _
        rw [hdl, dayCond_true hv hdp.1 hdp.2]
        simp
      · rw [if_neg hdp] at hdl
        show ((alookup p ((alookup d (dailyAdd (dayKey m.dt)
            (m.msg.sender, m.msg.recipient) st.daily)).getD [])).isSome ||
            !(rest.filter
              (fun x => pairFilter p.1 p.2 x && decide (dayKey x.dt = d))).isEmpty) = _
        rw [hdl, dayCond_false hdp]
        simp

theorem fold_daily_keys_nodup (l : List PMsg) :
    ∀ st : BuildState, ((st.daily).map Prod.fst).Nodup →
      (((l.foldl buildStep st).daily).map Prod.fst).Nodup := by
  induction l with
  | nil => intro st h; exact h
  | cons m rest ih =>
    intro st h
    simp only [List.foldl_cons]
    by_cases hv : m.msg.sender = "" ∨ m.msg.recipient = ""
    · rw [show buildStep st m = st from if_pos hv]
      exact ih st h
    · rw [show buildStep st m =
          ⟨graphAdd m.msg.sender m.msg.recipient m st.graph,
           firstAdd (m.msg.sender, m.msg.recipient) m.dt st.firstContact,
           dailyAdd (dayKey m.dt) (m.msg.sender, m.msg.recipient) st.daily⟩
          from if_neg hv]
      exact ih _ (dictUp_keys_nodup h)

theorem fold_daily_keys_mem (l : List PMsg) :
    ∀ (st : BuildState) (d : Int),
      d ∈ ((l.foldl buildStep st).daily).map Prod.fst ↔
        (d ∈ (st.daily).map Prod.fst ∨
          ∃ m ∈ l, isValid m = true ∧ dayKey m.dt = d) := by
  induction l with
  | nil => intro st d; simp
  | cons m rest ih =>
    intro st d
    simp only [List.foldl_cons]
    rw [ih]
    by_cases hv : m.msg.sender = "" ∨ m.msg.recipient = ""
    · rw [show buildStep st m = st from if_pos hv]
      have hval : isValid m = false := by simp [isValid, hv]
      simp [hval]
    · rw [show buildStep st m =
          ⟨graphAdd m.msg.sender m.msg.recipient m st.graph,
           firstAdd (m.msg.sender, m.msg.recipient) m.dt st.firstContact,
           dailyAdd (dayKey m.dt) (m.msg.sender, m.msg.recipient) st.daily⟩
          from if_neg hv]
      show (d ∈ (dailyAdd (dayKey m.dt) (m.msg.sender, m.msg.recipient)
          st.daily).map Prod.fst ∨ _) ↔ _
      unfold dailyAdd
      rw [dictUp_keys_mem]
      have hval : isValid m = true := by simp [isValid, hv]
      constructor
      · rintro ((h | h) | h)
        · exact Or.inl h
        · exact Or.inr ⟨m, List.mem_cons_self _ _, hval, h.symm⟩
        · obtain ⟨x, hx, hxs⟩ := h
          exact Or.inr ⟨x, List.mem_cons_of_mem _ hx, hxs⟩
      · rintro (h | ⟨x, hx, hxv, hxd⟩)
        · exact Or.inl (Or.inl h)
        · rcases List.mem_cons.mp hx with rfl | hx'
          · exact Or.inl (Or.inr hxd.symm)
          · exact Or.inr ⟨x, hx', hxv, hxd⟩

theorem fold_daily_inner_nodup (l : List PMsg) :
    ∀ st : BuildState,
      (∀ d : Int, (((alookup d st.daily).getD []).map Prod.fst).Nodup) →
      ∀ d : Int,
        (((alookup d ((l.foldl buildStep st).daily)).getD []).map Prod.fst).Nodup := by
  induction l with
  | nil => intro st h; exact h
  | cons m rest ih =>
    intro st h
    simp only [List.foldl_cons]
    by_cases hv : m.msg.sender = "" ∨ m.msg.recipient = ""
    · rw [show buildStep st m = st from if_pos hv]
      exact ih st h
    · rw [show buildStep st m =
          ⟨graphAdd m.msg.sender m.msg.recipient m st.graph,
           firstAdd (m.msg.sender, m.msg.recipient) m.dt st.firstContact,
           dailyAdd (dayKey m.dt) (m.msg.sender, m.msg.recipient) st.daily⟩
          from if_neg hv]
      apply ih
      intro d
      show (((alookup d (dailyAdd (dayKey m.dt)
          (m.msg.sender, m.msg.recipient) st.daily)).getD []).map Prod.fst).Nodup
      unfold dailyAdd
      rw [alookup_dictUp]
      by_cases hd : d = dayKey m.dt
      · rw [if_pos hd]
        exact dictUp_keys_nodup (h (dayKey m.dt))
      · rw [if_neg hd]
        exact h d

/-! ## Latest-time lemmas -/

theorem foldl_max_ge_init (l : List PMsg) :
    ∀ a : Int, a ≤ l.foldl (fun acc x => max acc x.dt) a := by
  induction l with
  | nil => intro a; exact le_refl a
  | cons x xs ih =>
    intro a
    exact le_trans (le_max_left a x.dt) (ih (max a x.dt))

theorem foldl_max_ge_mem (l : List PMsg) :
    ∀ (a : Int) (m : PMsg), m ∈ l →
      m.dt ≤ l.foldl (fun acc x => max acc x.dt) a := by
  induction l with
  | nil => intro a m hm; simp at hm
  | cons x xs ih =>
    intro a m hm
    rcases List.mem_cons.mp hm with rfl | hm'
    · exact le_trans (le_max_right a m.dt) (foldl_max_ge_init xs _)
    · exact ih _ m hm'

theorem maxDt_ge_mem {l : List PMsg} {m : PMsg} (hm : m ∈ l) : m.dt ≤ maxDt l := by
  cases l with
  | nil => simp at hm
  | cons x xs =>
    rcases List.mem_cons.mp hm with rfl | hm'
    · exact foldl_max_ge_init xs m.dt
    · exact foldl_max_ge_mem xs x.dt m hm'

theorem foldl_max_cases (l : List PMsg) :
    ∀ a : Int, l.foldl (fun acc x => max acc x.dt) a = a ∨
      ∃ m ∈ l, l.foldl (fun acc x => max acc x.dt) a = m.dt := by
  induction l with
  | nil => intro a; exact Or.inl rfl
  | cons x xs ih =>
    intro a
    simp only [List.foldl_cons]
    rcases ih (max a x.dt) with h | ⟨m, hm, hmeq⟩
    · rcases le_total a x.dt with hle | hle
      · exact Or.inr ⟨x, List.mem_cons_self _ _, by rw [h, max_eq_right hle]⟩
      · exact Or.inl (by rw [h, max_eq_left hle])
    · exact Or.inr ⟨m, List.mem_cons_of_mem _ hm, hmeq⟩

theorem maxDt_mem {l : List PMsg} (hne : l ≠ []) : ∃ m ∈ l, maxDt l = m.dt := by
  cases l with
  | nil => exact absurd rfl hne
  | cons x xs =>
    rcases foldl_max_cases xs x.dt with h | ⟨m, hm, hmeq⟩
    · exact ⟨x, List.mem_cons_self _ _, h⟩
    · exact ⟨m, List.mem_cons_of_mem _ hm, hmeq⟩

theorem maxDt_perm {l l' : List PMsg} (hp : List.Perm l l') (hne : l ≠ []) :
    maxDt l = maxDt l' := by
  have hne' : l' ≠ [] := by
    intro h
    rw [h] at hp
    exact hne hp.eq_nil
  obtain ⟨m, hm, hmeq⟩ := maxDt_mem hne
  obtain ⟨m', hm', hmeq'⟩ := maxDt_mem hne'
  apply le_antisymm
  · rw [hmeq]
    exact maxDt_ge_mem (hp.mem_iff.mp hm)
  · rw [hmeq']
    exact maxDt_ge_mem (hp.symm.mem_iff.mp hm')

/-! ## Serialization and counting lemmas -/

theorem graphCount_eq_glist (g : List (String × List (String × List PMsg)))
    (s r : String) :
    (alookup r ((alookup s (serializeGraph g)).getD [])).getD 0 =
      (glist g s r).length := by
  unfold serializeGraph glist
  rw [alookup_map_val]
  cases hs : alookup s g with
  | none => simp [alookup]
  | some inner =>
    simp only [Option.map_some', Option.getD_some]
    rw [alookup_map_val]
    cases hr : alookup r inner <;> simp

theorem filter_length_perm {p : PMsg → Bool} {l l' : List PMsg}
    (h : List.Perm l l') : (l.filter p).length = (l'.filter p).length :=
  (h.filter p).length_eq

theorem fold_graph_count (l : List PMsg) (s r : String) :
    (glist ((l.foldl buildStep ⟨[], [], []⟩).graph) s r).length =
      (l.filter (pairFilter s r)).length := by
  rw [fold_graph]
  simp [glist, alookup]

theorem sorted_pairCount (msgs : List Msg) (now : Int) (s r : String) :
    ((sortByDt (processMessages now msgs)).filter (pairFilter s r)).length =
      pairCount msgs now s r :=
  filter_length_perm (sortByDt_perm _)

/-! ## Claims C3 and C9 -/

/-- C3 counterexample: a message whose timestamp string no parser accepts is
nevertheless included in contact analysis — it shows up in the contact graph
(with the wall-clock fallback as its datetime), contradicting the claim that
such a message never appears there. -/
theorem claim_c3_counterexample :
    graphCount (analyze_contact_patterns
        [⟨0, "alice", "bob", Timestamp.unparseable "not-a-date"⟩] 24 0)
      "alice" "bob" = 1 := by decide

/-- Helper: on a batch the analysis completes on, the contact graph counts
every message with nonempty sender and recipient, independently of its
timestamp. -/
theorem analyze_graph_counts_all (msgs : List Msg) (w : Int) (now : Int)
    (s r : String) :
    graphCount (analyze_contact_patterns msgs w now) s r =
      (msgs.filter (fun m => decide (¬(m.sender = "" ∨ m.recipient = "")) &&
        decide (m.sender = s) && decide (m.recipient = r))).length := by
  cases msgs with
  | nil => simp [analyze_contact_patterns, graphCount, alookup]
  | cons m0 rest =>
    rw [analyze_contact_patterns, if_neg (by simp)]
    rw [analyzeCore, if_neg (by simp [processMessages])]
    show (alookup r ((alookup s (serializeGraph
        ((sortByDt (processMessages now (m0 :: rest))).foldl buildStep
          ⟨[], [], []⟩).graph)).getD [])).getD 0 = _
    rw [graphCount_eq_glist, fold_graph_count,
        sorted_pairCount (m0 :: rest) now s r]
    show ((((m0 :: rest).map (fun m => (⟨m, resolveTs now m.ts⟩ : PMsg))).filter
        (pairFilter s r)).length : Nat) = _
    rw [List.filter_map, List.length_map]
    rfl

/-- C3 (amended): a message with an ambiguous or unparseable timestamp is not
excluded and can even abort the batch.  Whenever `analyze_contact_patterns`
returns at all, its contact graph counts every message with nonempty sender
and recipient regardless of timestamp parseability (first conjunct); a
homogeneous batch does return (second conjunct); but adding one unparseable
message to a batch whose accepted timestamp carries a UTC offset makes both
analysis calls raise — the naive `datetime.now()` fallback is not comparable
with the aware parsed datetime, so `sorted(...)` raises `TypeError` and the
whole batch fails (last two conjuncts). -/
theorem claim_c3_fallback_included_or_fatal :
    (∀ (msgs : List RMsg) (w now : Int) (s r : String) (rep : ContactReport),
        analyze_contact_patterns_tz msgs w now = some rep →
        graphCount rep s r =
          (msgs.filter (fun m => decide (¬(m.sender = "" ∨ m.recipient = "")) &&
            decide (m.sender = s) && decide (m.recipient = r))).length) ∧
      analyze_contact_patterns_tz [⟨0, "a", "b", TsForm.awareStr 100⟩] 24 0 =
        some (analyze_contact_patterns
          ([⟨0, "a", "b", TsForm.awareStr 100⟩].map eraseMsg) 24 0) ∧
      analyze_contact_patterns_tz
        [⟨0, "a", "b", TsForm.awareStr 100⟩,
         ⟨1, "c", "d", TsForm.badStr "not-a-date"⟩] 24 0 = none ∧
      detect_temporal_anomalies_tz
        [⟨0, "a", "b", TsForm.awareStr 100⟩,
         ⟨1, "c", "d", TsForm.badStr "not-a-date"⟩] 50 0 = none := by
  refine ⟨?_, by decide, by decide, by decide⟩
  intro msgs w now s r rep hrep
  unfold analyze_contact_patterns_tz at hrep
  by_cases hemp : msgs.isEmpty
  · rw [if_pos hemp] at hrep
    injection hrep with hrep
    cases msgs with
    | nil =>
      rw [← hrep]
      simp [graphCount, alookup]
    | cons a b => simp at hemp
  · rw [if_neg hemp] at hrep
    by_cases hmix : mixesAware msgs = true
    · rw [if_pos hmix] at hrep
      exact Option.noConfusion hrep
    · rw [if_neg hmix] at hrep
      injection hrep with hrep
      rw [← hrep, analyze_graph_counts_all, List.filter_map, List.length_map]
      rfl

/-- C3 witness: the first conjunct applied to a concrete homogeneous batch —
an unparseable-timestamp message is counted in the returned contact graph. -/
theorem claim_c3_witness :
    graphCount (analyze_contact_patterns
        ([⟨7, "x", "y", TsForm.badStr "??"⟩].map eraseMsg) 24 5) "x" "y" = 1 := by
  have h := claim_c3_fallback_included_or_fatal.1
    [⟨7, "x", "y", TsForm.badStr "??"⟩] 24 5 "x" "y"
    (analyze_contact_patterns ([⟨7, "x", "y", TsForm.badStr "??"⟩].map eraseMsg)
      24 5)
    (by decide)
  rw [h]
  decide

/-- C9 counterexample: on a batch containing a message without a resolvable
timestamp, two runs of the analysis at different wall-clock instants produce
different reports (the fallback `datetime.now()` leaks into the output), so
the analysis is not a function of the batch alone. -/
theorem claim_c9_counterexample :
    detect_temporal_anomalies [⟨0, "a", "b", Timestamp.absent⟩] 50 7200 ≠
      detect_temporal_anomalies [⟨0, "a", "b", Timestamp.absent⟩] 50 43200 := by
  decide

/-- C9 (amended): on batches in which every message carries a resolvable
timestamp, both analyses are deterministic functions of the batch — the
wall-clock instant of the run does not influence either report; with an
unresolvable timestamp the `datetime.now()` fallback can change the reports
across runs. -/
theorem claim_c9_deterministic (msgs : List Msg) (threshold : Nat) (w : Int)
    (now1 now2 : Int)
    (hp : ∀ m ∈ msgs, ∃ t : Int, m.ts = Timestamp.parsed t) :
    detect_temporal_anomalies msgs threshold now1 =
        detect_temporal_anomalies msgs threshold now2 ∧
      analyze_contact_patterns msgs w now1 =
        analyze_contact_patterns msgs w now2 := by
  have hproc : processMessages now1 msgs = processMessages now2 msgs := by
    unfold processMessages
    apply List.map_congr_left
    intro m hm
    obtain ⟨t, ht⟩ := hp m hm
    rw [ht]
    rfl
  constructor
  · unfold detect_temporal_anomalies
    rw [hproc]
  · unfold analyze_contact_patterns
    rw [hproc]

theorem analyze_new_contacts_eq (msgs : List Msg) (w now : Int)
    (hne : msgs ≠ []) :
    (analyze_contact_patterns msgs w now).new_contacts =
      newContactsOf
        ((sortByDt (processMessages now msgs)).foldl buildStep ⟨[], [], []⟩)
        (maxDt (sortByDt (processMessages now msgs))) w := by
  cases msgs with
  | nil => exact absurd rfl hne
  | cons a b =>
    rw [analyze_contact_patterns, if_neg (by simp), analyzeCore,
        if_neg (by simp [processMessages])]

theorem analyze_drops_eq (msgs : List Msg) (w now : Int) (hne : msgs ≠ []) :
    (analyze_contact_patterns msgs w now).contact_drops =
      contactDropsOf
        ((sortByDt (processMessages now msgs)).foldl buildStep ⟨[], [], []⟩) := by
  cases msgs with
  | nil => exact absurd rfl hne
  | cons a b =>
    rw [analyze_contact_patterns, if_neg (by simp), analyzeCore,
        if_neg (by simp [processMessages])]

theorem sortByDt_ne_nil {l : List PMsg} (h : l ≠ []) : sortByDt l ≠ [] := by
  intro h0
  have hp := (sortByDt_perm l).symm
  rw [h0] at hp
  exact h hp.eq_nil

/-- C6: a pair is reported as a new contact exactly when its first-contact
time (the datetime of its first kept message) is at or after
`latest_message_time - window` — the boundary instant is included — and each
reported pair carries its first-contact time and its total message count in
the dataset. -/
theorem claim_c6_new_contacts (msgs : List Msg) (w : Int) (now : Int)
    (hne : msgs ≠ []) :
    (∀ e ∈ (analyze_contact_patterns msgs w now).new_contacts,
        firstDt msgs now e.sender e.recipient = some e.first_contact_time ∧
          e.message_count = pairCount msgs now e.sender e.recipient ∧
          maxDt (processMessages now msgs) - 3600 * w ≤ e.first_contact_time) ∧
      (∀ (s r : String) (t : Int), firstDt msgs now s r = some t →
          maxDt (processMessages now msgs) - 3600 * w ≤ t →
          NewContact.mk s r t (pairCount msgs now s r) ∈
            (analyze_contact_patterns msgs w now).new_contacts) := by
  have hpne : processMessages now msgs ≠ [] := by
    cases msgs with
    | nil => exact absurd rfl hne
    | cons a b => simp [processMessages]
  have hsne : sortByDt (processMessages now msgs) ≠ [] := sortByDt_ne_nil hpne
  have hmax : maxDt (sortByDt (processMessages now msgs)) =
      maxDt (processMessages now msgs) :=
    maxDt_perm (sortByDt_perm _) hsne
  rw [analyze_new_contacts_eq msgs w now hne]
  set F := (sortByDt (processMessages now msgs)).foldl buildStep
    (⟨[], [], []⟩ : BuildState) with hF
  have hff : ∀ p : String × String,
      alookup p F.firstContact =
        (((sortByDt (processMessages now msgs)).filter
          (pairFilter p.1 p.2)).head?).map (fun x : PMsg => x.dt) := by
    intro p
    rw [hF, fold_first]
    rfl
  have hnd : ((F.firstContact).map Prod.fst).Nodup := by
    rw [hF]
    exact fold_first_keys_nodup _ _ (by simp)
  have hcount : ∀ s r : String,
      ((alookup r ((alookup s F.graph).getD [])).getD []).length =
        pairCount msgs now s r := by
    intro s r
    rw [show ((alookup r ((alookup s F.graph).getD [])).getD []) =
        glist F.graph s r from rfl, hF, fold_graph_count]
    exact sorted_pairCount msgs now s r
  constructor
  · intro e he
    unfold newContactsOf at he
    simp only [List.mem_filterMap] at he
    obtain ⟨pt, hptmem, hcond⟩ := he
    by_cases hc : maxDt (sortByDt (processMessages now msgs)) - 3600 * w ≤ pt.2
    · rw [if_pos hc] at hcond
      injection hcond with hcond
      have hlook : alookup pt.1 F.firstContact = some pt.2 :=
        alookup_of_mem_nodup hnd (by rw [Prod.mk.eta]; exact hptmem)
      rw [hff] at hlook
      rw [← hcond]
      refine ⟨hlook, hcount pt.1.1 pt.1.2, ?_⟩
      rw [← hmax]
      exact hc
    · rw [if_neg hc] at hcond
      exact Option.noConfusion hcond
  · intro s r t hfirst hwin
    have hlook : alookup (s, r) F.firstContact = some t := by
      rw [hff (s, r)]
      exact hfirst
    have hmem := mem_of_alookup hlook
    unfold newContactsOf
    simp only [List.mem_filterMap]
    refine ⟨((s, r), t), hmem, ?_⟩
    rw [if_pos (by rw [hmax]; exact hwin)]
    rw [show (((s, r), t) : (String × String) × Int).1.1 = s from rfl,
        show (((s, r), t) : (String × String) × Int).1.2 = r from rfl,
        show (((s, r), t) : (String × String) × Int).2 = t from rfl,
        hcount s r]

/-- C6 witness: on a concrete batch the pair whose first message lies exactly
at `latest_time - 24h` is reported as a new contact with its message count. -/
theorem claim_c6_witness :
    NewContact.mk "c" "d" 13600 1 ∈
      (analyze_contact_patterns
        [⟨0, "a", "b", Timestamp.parsed 0⟩,
         ⟨1, "c", "d", Timestamp.parsed 13600⟩,
         ⟨2, "a", "b", Timestamp.parsed 100000⟩] 24 0).new_contacts :=
  (claim_c6_new_contacts
      [⟨0, "a", "b", Timestamp.parsed 0⟩,
       ⟨1, "c", "d", Timestamp.parsed 13600⟩,
       ⟨2, "a", "b", Timestamp.parsed 100000⟩] 24 0 (by decide)).2
    "c" "d" 13600 (by decide) (by decide)

/-! ## Contact-drop lemmas -/

theorem fold_days_eq (msgs : List Msg) (now : Int) :
    sortByKey (fun d => d)
        ((((sortByDt (processMessages now msgs)).foldl buildStep
          (⟨[], [], []⟩ : BuildState)).daily).map Prod.fst) =
      distinctDays msgs now := by
  have hnd1 : ((((sortByDt (processMessages now msgs)).foldl buildStep
      (⟨[], [], []⟩ : BuildState)).daily).map Prod.fst).Nodup :=
    fold_daily_keys_nodup _ _ (by simp)
  have hnd2 : ((((processMessages now msgs).filter isValid).map
      (fun m => dayKey m.dt)).dedup).Nodup := List.nodup_dedup _
  have hmem : ∀ a : Int,
      a ∈ (((sortByDt (processMessages now msgs)).foldl buildStep
        (⟨[], [], []⟩ : BuildState)).daily).map Prod.fst ↔
      a ∈ (((processMessages now msgs).filter isValid).map
        (fun m => dayKey m.dt)).dedup := by
    intro a
    rw [fold_daily_keys_mem, List.mem_dedup]
    constructor
    · rintro (h | ⟨m, hm, hv, hd⟩)
      · simp at h
      · exact List.mem_map.mpr
          ⟨m, List.mem_filter.mpr ⟨(sortByDt_perm _).mem_iff.mp hm, hv⟩, hd⟩
    · intro h
      obtain ⟨m, hm, hd⟩ := List.mem_map.mp h
      obtain ⟨hm2, hv⟩ := List.mem_filter.mp hm
      exact Or.inr ⟨m, (sortByDt_perm _).mem_iff.mpr hm2, hv, hd⟩
  have hperm : List.Perm
      (sortByKey (fun d => d)
        ((((sortByDt (processMessages now msgs)).foldl buildStep
          (⟨[], [], []⟩ : BuildState)).daily).map Prod.fst))
      (distinctDays msgs now) := by
    unfold distinctDays
    exact ((sortByKey_perm _ _).trans
      ((List.perm_ext_iff_of_nodup hnd1 hnd2).mpr hmem)).trans
      (sortByKey_perm _ _).symm
  have hs1 : List.Sorted (fun x y : Int => x ≤ y)
      (sortByKey (fun d => d)
        ((((sortByDt (processMessages now msgs)).foldl buildStep
          (⟨[], [], []⟩ : BuildState)).daily).map Prod.fst)) :=
    sortByKey_pairwise _ _
  have hs2 : List.Sorted (fun x y : Int => x ≤ y) (distinctDays msgs now) :=
    sortByKey_pairwise _ _
  exact List.eq_of_perm_of_sorted hperm hs1 hs2

theorem fold_dcount (msgs : List Msg) (now : Int) (d : Int)
    (p : String × String) :
    (alookup p ((alookup d (((sortByDt (processMessages now msgs)).foldl
      buildStep (⟨[], [], []⟩ : BuildState)).daily)).getD [])).getD 0 =
    dayPairCount msgs now d p.1 p.2 := by
  rw [fold_daily_getD]
  have hbase : (alookup p ((alookup d
      ((⟨[], [], []⟩ : BuildState).daily)).getD [])).getD 0 = 0 := rfl
  rw [hbase, Nat.zero_add]
  unfold dayPairCount
  exact filter_length_perm (sortByDt_perm _)

theorem fold_dcount_none (msgs : List Msg) (now : Int) (d : Int)
    (p : String × String) :
    (alookup p ((alookup d (((sortByDt (processMessages now msgs)).foldl
        buildStep (⟨[], [], []⟩ : BuildState)).daily)).getD []) = none) ↔
      dayPairCount msgs now d p.1 p.2 = 0 := by
  have h := fold_daily_isSome (sortByDt (processMessages now msgs))
    ⟨[], [], []⟩ d p
  have hbase : (alookup p ((alookup d
      ((⟨[], [], []⟩ : BuildState).daily)).getD [])).isSome = false := rfl
  rw [hbase, Bool.false_or] at h
  have hlen : ((sortByDt (processMessages now msgs)).filter
      (fun m => pairFilter p.1 p.2 m && decide (dayKey m.dt = d))).length =
      dayPairCount msgs now d p.1 p.2 := by
    unfold dayPairCount
    exact filter_length_perm (sortByDt_perm _)
  rw [← hlen]
  constructor
  · intro hn
    rw [hn] at h
    simp only [Option.isSome_none] at h
    cases hie : ((sortByDt (processMessages now msgs)).filter
        (fun m => pairFilter p.1 p.2 m && decide (dayKey m.dt = d))).isEmpty with
    | true =>
      rw [List.isEmpty_iff] at hie
      rw [hie]
      rfl
    | false =>
      rw [hie] at h
      simp at h
  · intro hl
    have hfil : ((sortByDt (processMessages now msgs)).filter
        (fun m => pairFilter p.1 p.2 m && decide (dayKey m.dt = d))) = [] :=
      List.length_eq_zero.mp hl
    rw [hfil] at h
    simp only [List.isEmpty_nil, Bool.not_true] at h
    cases halo : alookup p ((alookup d (((sortByDt (processMessages now msgs)).foldl
        buildStep (⟨[], [], []⟩ : BuildState)).daily)).getD []) with
    | none => rfl
    | some v =>
      rw [halo] at h
      simp at h

theorem fold_daily_length_eq (msgs : List Msg) (now : Int) :
    (((sortByDt (processMessages now msgs)).foldl buildStep
        (⟨[], [], []⟩ : BuildState)).daily).length =
      (distinctDays msgs now).length := by
  rw [← fold_days_eq msgs now, (sortByKey_perm _ _).length_eq, List.length_map]

theorem contactDrops_reduce (msgs : List Msg) (now : Int)
    (today yesterday : Int) (drest : List Int)
    (hrev : (distinctDays msgs now).reverse = today :: yesterday :: drest) :
    contactDropsOf ((sortByDt (processMessages now msgs)).foldl buildStep
        (⟨[], [], []⟩ : BuildState)) =
      ((alookup yesterday (((sortByDt (processMessages now msgs)).foldl buildStep
          (⟨[], [], []⟩ : BuildState)).daily)).getD []).filterMap (fun pc =>
        if 3 < pc.2 ∧ alookup pc.1 ((alookup today
            (((sortByDt (processMessages now msgs)).foldl buildStep
              (⟨[], [], []⟩ : BuildState)).daily)).getD []) = none
        then some ⟨pc.1.1, pc.1.2, yesterday, pc.2⟩
        else none) := by
  have hlen2 : (((sortByDt (processMessages now msgs)).foldl buildStep
      (⟨[], [], []⟩ : BuildState)).daily).length ≥ 2 := by
    rw [fold_daily_length_eq]
    have := congrArg List.length hrev
    simp only [List.length_reverse, List.length_cons] at this
    omega
  unfold contactDropsOf
  rw [if_pos hlen2, fold_days_eq msgs now, hrev]

/-- C5 (helper): membership in the drops of the built state matches the
two-most-recent-day differential. -/
theorem contactDrops_mem_iff (msgs : List Msg) (now : Int)
    (today yesterday : Int) (drest : List Int)
    (hrev : (distinctDays msgs now).reverse = today :: yesterday :: drest)
    (s r : String) :
    ContactDrop.mk s r yesterday (dayPairCount msgs now yesterday s r) ∈
        contactDropsOf ((sortByDt (processMessages now msgs)).foldl buildStep
          (⟨[], [], []⟩ : BuildState)) ↔
      (3 < dayPairCount msgs now yesterday s r ∧
        dayPairCount msgs now today s r = 0) := by
  rw [contactDrops_reduce msgs now today yesterday drest hrev]
  have hinnernd : ∀ d : Int,
      (((alookup d (((sortByDt (processMessages now msgs)).foldl buildStep
        (⟨[], [], []⟩ : BuildState)).daily)).getD []).map Prod.fst).Nodup :=
    fold_daily_inner_nodup _ _ (fun d => by simp [alookup])
  constructor
  · intro hmem
    simp only [List.mem_filterMap] at hmem
    obtain ⟨pc, hpcmem, hpccond⟩ := hmem
    by_cases hcnd : 3 < pc.2 ∧ alookup pc.1 ((alookup today
        (((sortByDt (processMessages now msgs)).foldl buildStep
          (⟨[], [], []⟩ : BuildState)).daily)).getD []) = none
    · rw [if_pos hcnd] at hpccond
      injection hpccond with heq
      have hs : pc.1.1 = s := congrArg ContactDrop.sender heq
      have hr : pc.1.2 = r := congrArg ContactDrop.recipient heq
      have hp1 : pc.1 = (s, r) := by
        rw [← hs, ← hr]
      have hlook : alookup pc.1 ((alookup yesterday
          (((sortByDt (processMessages now msgs)).foldl buildStep
            (⟨[], [], []⟩ : BuildState)).daily)).getD []) = some pc.2 :=
        alookup_of_mem_nodup (hinnernd yesterday) (Prod.mk.eta ▸ hpcmem)
      have hval : pc.2 = dayPairCount msgs now yesterday s r := by
        have := fold_dcount msgs now yesterday pc.1
        rw [hlook] at this
        simp only [Option.getD_some] at this
        rw [this, hs, hr]
      constructor
      · rw [← hval]
        exact hcnd.1
      · have := hcnd.2
        rw [hp1] at this
        exact (fold_dcount_none msgs now today ((s, r) : String × String)).mp this
    · rw [if_neg hcnd] at hpccond
      exact Option.noConfusion hpccond
  · rintro ⟨h3, h0⟩
    have hy_ne : dayPairCount msgs now yesterday s r ≠ 0 := by omega
    have hsome : alookup ((s, r) : String × String) ((alookup yesterday
        (((sortByDt (processMessages now msgs)).foldl buildStep
          (⟨[], [], []⟩ : BuildState)).daily)).getD []) =
        some (dayPairCount msgs now yesterday s r) := by
      cases halo : alookup ((s, r) : String × String) ((alookup yesterday
          (((sortByDt (processMessages now msgs)).foldl buildStep
            (⟨[], [], []⟩ : BuildState)).daily)).getD []) with
      | none =>
        exact absurd ((fold_dcount_none msgs now yesterday
          ((s, r) : String × String)).mp halo) hy_ne
      | some v =>
        have := fold_dcount msgs now yesterday ((s, r) : String × String)
        rw [halo] at this
        simp only [Option.getD_some] at this
        rw [this]
    have hmem := mem_of_alookup hsome
    simp only [List.mem_filterMap]
    refine ⟨((s, r), dayPairCount msgs now yesterday s r), hmem, ?_⟩
    rw [if_pos ⟨h3, (fold_dcount_none msgs now today
      ((s, r) : String × String)).mpr h0⟩]

/-- C5 (helper): every reported drop carries the earlier day as
`last_active`, its count on that day as `previous_count`, a count above 3
there and zero on the most recent day. -/
theorem contactDrops_sound (msgs : List Msg) (now : Int)
    (today yesterday : Int) (drest : List Int)
    (hrev : (distinctDays msgs now).reverse = today :: yesterday :: drest) :
    ∀ e ∈ contactDropsOf ((sortByDt (processMessages now msgs)).foldl buildStep
        (⟨[], [], []⟩ : BuildState)),
      e.last_active = yesterday ∧
        e.previous_count = dayPairCount msgs now yesterday e.sender e.recipient ∧
        3 < e.previous_count ∧
        dayPairCount msgs now today e.sender e.recipient = 0 := by
  rw [contactDrops_reduce msgs now today yesterday drest hrev]
  have hinnernd : ∀ d : Int,
      (((alookup d (((sortByDt (processMessages now msgs)).foldl buildStep
        (⟨[], [], []⟩ : BuildState)).daily)).getD []).map Prod.fst).Nodup :=
    fold_daily_inner_nodup _ _ (fun d => by simp [alookup])
  intro e he
  simp only [List.mem_filterMap] at he
  obtain ⟨pc, hpcmem, hpccond⟩ := he
  by_cases hcnd : 3 < pc.2 ∧ alookup pc.1 ((alookup today
      (((sortByDt (processMessages now msgs)).foldl buildStep
        (⟨[], [], []⟩ : BuildState)).daily)).getD []) = none
  · rw [if_pos hcnd] at hpccond
    injection hpccond with heq
    have hlook : alookup pc.1 ((alookup yesterday
        (((sortByDt (processMessages now msgs)).foldl buildStep
          (⟨[], [], []⟩ : BuildState)).daily)).getD []) = some pc.2 :=
      alookup_of_mem_nodup (hinnernd yesterday) (Prod.mk.eta ▸ hpcmem)
    have hval : pc.2 = dayPairCount msgs now yesterday pc.1.1 pc.1.2 := by
      have := fold_dcount msgs now yesterday pc.1
      rw [hlook] at this
      simp only [Option.getD_some] at this
      rw [this]
    rw [← heq]
    refine ⟨rfl, hval, hcnd.1, ?_⟩
    have := hcnd.2
    rw [show (pc.1 : String × String) = (pc.1.1, pc.1.2) from Prod.mk.eta.symm] at this
    exact (fold_dcount_none msgs now today
      ((pc.1.1, pc.1.2) : String × String)).mp this
  · rw [if_neg hcnd] at hpccond
    exact Option.noConfusion hpccond

/-- C5 (helper): fewer than two distinct days present means no drops. -/
theorem contactDrops_short (msgs : List Msg) (now : Int)
    (hlen : (distinctDays msgs now).length < 2) :
    contactDropsOf ((sortByDt (processMessages now msgs)).foldl buildStep
      (⟨[], [], []⟩ : BuildState)) = [] := by
  have hl : (((sortByDt (processMessages now msgs)).foldl buildStep
      (⟨[], [], []⟩ : BuildState)).daily).length < 2 := by
    rw [fold_daily_length_eq]
    exact hlen
  unfold contactDropsOf
  rw [if_neg (by omega)]

/-- C5: `analyze_contact_patterns` reports `(s, r)` as a contact drop exactly
when, taking the two most recent distinct calendar days present among the
kept messages, the pair's count on the earlier day strictly exceeds 3 and is
zero on the later day (so 3-then-0 is not a drop, 4-then-0 is, 4-then-1 is
not); with fewer than two distinct days no drops are reported. -/
theorem claim_c5_contact_drops (msgs : List Msg) (w : Int) (now : Int) :
    (∀ (today yesterday : Int) (drest : List Int),
        (distinctDays msgs now).reverse = today :: yesterday :: drest →
        (∀ s r : String,
          ContactDrop.mk s r yesterday (dayPairCount msgs now yesterday s r) ∈
              (analyze_contact_patterns msgs w now).contact_drops ↔
            (3 < dayPairCount msgs now yesterday s r ∧
              dayPairCount msgs now today s r = 0)) ∧
        (∀ e ∈ (analyze_contact_patterns msgs w now).contact_drops,
          e.last_active = yesterday ∧
            e.previous_count =
              dayPairCount msgs now yesterday e.sender e.recipient ∧
            3 < e.previous_count ∧
            dayPairCount msgs now today e.sender e.recipient = 0)) ∧
      ((distinctDays msgs now).length < 2 →
        (analyze_contact_patterns msgs w now).contact_drops = []) := by
  constructor
  · intro today yesterday drest hrev
    have hne : msgs ≠ [] := by
      intro h0
      rw [h0] at hrev
      simp [distinctDays, processMessages, sortByKey] at hrev
    rw [analyze_drops_eq msgs w now hne]
    exact ⟨contactDrops_mem_iff msgs now today yesterday drest hrev,
           contactDrops_sound msgs now today yesterday drest hrev⟩
  · intro hlen
    cases hm : msgs with
    | nil => simp [analyze_contact_patterns]
    | cons a b =>
      rw [← hm, analyze_drops_eq msgs w now (by rw [hm]; simp)]
      exact contactDrops_short msgs now hlen

/-- C5 witness: on a concrete batch with 4 messages of one pair on the
earlier day and none on the later day, that pair is reported as a drop. -/
theorem claim_c5_witness :
    ContactDrop.mk "a" "b" 0 4 ∈
      (analyze_contact_patterns
        [⟨0, "a", "b", Timestamp.parsed 0⟩, ⟨1, "a", "b", Timestamp.parsed 1⟩,
         ⟨2, "a", "b", Timestamp.parsed 2⟩, ⟨3, "a", "b", Timestamp.parsed 3⟩,
         ⟨4, "c", "d", Timestamp.parsed 86400⟩] 24 0).contact_drops :=
  (((claim_c5_contact_drops
      [⟨0, "a", "b", Timestamp.parsed 0⟩, ⟨1, "a", "b", Timestamp.parsed 1⟩,
       ⟨2, "a", "b", Timestamp.parsed 2⟩, ⟨3, "a", "b", Timestamp.parsed 3⟩,
       ⟨4, "c", "d", Timestamp.parsed 86400⟩] 24 0).1 1 0 []
    (by decide)).1 "a" "b").mpr (by decide)

/-- C9 witness: the amended determinism applied to a concrete fully-parsed
batch at two different run instants. -/
theorem claim_c9_witness :
    detect_temporal_anomalies [⟨0, "a", "b", Timestamp.parsed 3600⟩] 50 0 =
        detect_temporal_anomalies [⟨0, "a", "b", Timestamp.parsed 3600⟩] 50 99999 ∧
      analyze_contact_patterns [⟨0, "a", "b", Timestamp.parsed 3600⟩] 24 0 =
        analyze_contact_patterns [⟨0, "a", "b", Timestamp.parsed 3600⟩] 24 99999 :=
  claim_c9_deterministic [⟨0, "a", "b", Timestamp.parsed 3600⟩] 50 24 0 99999
    (by
      intro m hm
      rw [List.mem_singleton] at hm
      subst hm
      exact ⟨3600, rfl⟩)

end UFDR
